import Mathlib

/-!
Verification of an IDA* grid-pathfinding implementation.

The development embeds the core search (`src/src/ida_star.py`: `manhattan`,
`ida_star` with its inner `dfs_search`) and the reference best-first search
(`src/examples/comparison_a_star.py`: `AStar.search`).

Coordinates are pairs of integers, grids are lists of rows of cell values
(`1` = blocked, anything else free), and heuristic values are
integers (the Python core's heuristic arithmetic is integer arithmetic).  The recursive depth-first search
is embedded with an explicit fuel parameter so that every definition is a
structurally recursive, executable function; theorems below show that the
chosen fuel always suffices, which is exactly the termination content of
the original loop.  The Python `visited` set is mutated in place
(`add` before each recursive call, `remove` after the subtree is explored),
so `dfs_search` here threads the set through the computation and returns
its final contents alongside the result; `dfs_fun` is the corresponding
pure function, and the two are related by the restoration lemmas.
-/

abbrev Coord := ℤ × ℤ

abbrev Grid := List (List ℕ)

abbrev Heur := Coord → Coord → ℤ

/-- `abs(a[0] - b[0]) + abs(a[1] - b[1])` from `manhattan` in `ida_star.py`
(integer absolute values). -/
def manhattan (a b : Coord) : ℤ :=
  (((a.1 - b.1).natAbs + (a.2 - b.2).natAbs : ℕ) : ℤ)

/-- `len(grid)` — number of rows. -/
def rows (grid : Grid) : ℕ := grid.length

/-- `len(grid[0])` — number of columns (row 0's length). -/
def cols (grid : Grid) : ℕ := (grid.headD []).length

/-- The bounds test `0 <= r < len(grid) and 0 <= c < len(grid[0])`. -/
def InBounds (grid : Grid) (n : Coord) : Prop :=
  0 ≤ n.1 ∧ n.1 < (rows grid : ℤ) ∧ 0 ≤ n.2 ∧ n.2 < (cols grid : ℤ)

instance (grid : Grid) (n : Coord) : Decidable (InBounds grid n) := by
  unfold InBounds; infer_instance

/-- The cell value `grid[r][c]` (total model; only read behind `InBounds`). -/
def cellAt (grid : Grid) (n : Coord) : ℕ :=
  (grid.getD n.1.toNat []).getD n.2.toNat 0

/-- The grid is rectangular: every row has the length of row 0
(the spec's input contract; Python indexes rows with `len(grid[0])`). -/
def Rectangular (grid : Grid) : Prop :=
  ∀ row ∈ grid, row.length = cols grid

instance (grid : Grid) : Decidable (Rectangular grid) := by
  unfold Rectangular; infer_instance

/-- The four neighbours in source order: `[(0, 1), (1, 0), (0, -1), (-1, 0)]`
(right, down, left, up). -/
def nbrList (n : Coord) : List Coord :=
  [(n.1, n.2 + 1), (n.1 + 1, n.2), (n.1, n.2 - 1), (n.1 - 1, n.2)]

/-- The numeric value accumulated in `min_exceed`: either `math.inf`
or a finite cost. -/
inductive ECost where
  | inf : ECost
  | fin : ℤ → ECost
deriving DecidableEq

/-- Python's `min` on `math.inf`-or-number values. -/
def ECost.minE : ECost → ECost → ECost
  | .inf, y => y
  | .fin a, .inf => .fin a
  | .fin a, .fin b => .fin (min a b)

/-- Return value of `dfs_search`: the `"FOUND"` sentinel or a numeric bound. -/
inductive Res where
  | found : Res
  | bound : ECost → Res
deriving DecidableEq

/-- The neighbour loop of `dfs_search`, with the visited set threaded through
exactly as the Python code mutates it: `visited.add(neighbor)` before the
recursive call, `visited.remove(neighbor)` after the subtree is explored
(and no removal when `"FOUND"` propagates).  `recurse` is the recursive
entry point at one unit less fuel; `none` means the fuel ran out. -/
def dfs_loop (recurse : Coord → ℕ → Finset Coord → Option (Res × Finset Coord))
    (grid : Grid) (g : ℕ) :
    List Coord → Finset Coord → ECost → Option (Res × Finset Coord)
  | [], visited, m => some (.bound m, visited)
  | nb :: rest, visited, m =>
    if InBounds grid nb then
      if cellAt grid nb = 1 then dfs_loop recurse grid g rest visited m
      else if nb ∈ visited then dfs_loop recurse grid g rest visited m
      else
        match recurse nb (g + 1) (insert nb visited) with
        | none => none
        | some (.found, v₁) => some (.found, v₁)
        | some (.bound b, v₁) =>
            dfs_loop recurse grid g rest (v₁.erase nb) (m.minE b)
    else dfs_loop recurse grid g rest visited m

/-- The inner `dfs_search(node, g_cost, current_threshold, visited)` of
`ida_star`, with fuel bounding the recursion depth. -/
def dfs_search (grid : Grid) (goal : Coord) (h : Heur) (t : ℤ) :
    ℕ → Coord → ℕ → Finset Coord → Option (Res × Finset Coord)
  | 0 => fun _ _ _ => none
  | fuel + 1 => fun node g visited =>
      let f : ℤ := (g : ℤ) + h node goal
      if t < f then some (.bound (.fin f), visited)
      else if node = goal then some (.found, visited)
      else dfs_loop (dfs_search grid goal h t fuel) grid g (nbrList node) visited .inf

/-- Pure twin of `dfs_loop`: sibling subtrees run on the caller's visited set
(justified by the restoration lemmas below). -/
def dfs_floop (recurse : Coord → ℕ → Finset Coord → Option Res)
    (grid : Grid) (g : ℕ) (visited : Finset Coord) :
    List Coord → ECost → Option Res
  | [], m => some (.bound m)
  | nb :: rest, m =>
    if InBounds grid nb then
      if cellAt grid nb = 1 then dfs_floop recurse grid g visited rest m
      else if nb ∈ visited then dfs_floop recurse grid g visited rest m
      else
        match recurse nb (g + 1) (insert nb visited) with
        | none => none
        | some .found => some .found
        | some (.bound b) => dfs_floop recurse grid g visited rest (m.minE b)
    else dfs_floop recurse grid g visited rest m

/-- Pure twin of `dfs_search`. -/
def dfs_fun (grid : Grid) (goal : Coord) (h : Heur) (t : ℤ) :
    ℕ → Coord → ℕ → Finset Coord → Option Res
  | 0 => fun _ _ _ => none
  | fuel + 1 => fun node g visited =>
      let f : ℤ := (g : ℤ) + h node goal
      if t < f then some (.bound (.fin f))
      else if node = goal then some .found
      else dfs_floop (dfs_fun grid goal h t fuel) grid g visited (nbrList node) .inf

/-- Fuel for one depth-first excursion: the recursion adds a fresh in-bounds
cell to `visited` at each nested call, so `rows * cols + 2` levels suffice. -/
def dfsFuel (grid : Grid) : ℕ := rows grid * cols grid + 2

/-- The in-bounds coordinates, as a finite set. -/
def boundsFin (grid : Grid) : Finset Coord :=
  ((Finset.range (rows grid)) ×ˢ (Finset.range (cols grid))).image
    (fun p => ((p.1 : ℤ), (p.2 : ℤ)))

/-- Every coordinate the search can ever sit on: the start plus the
in-bounds cells. -/
def cellsFin (grid : Grid) (start : Coord) : Finset Coord :=
  insert start (boundsFin grid)

/-- All f-costs the search can ever produce: `g + h(c, goal)` for a depth
`g` of at most `rows * cols + 1` and a cell `c` the search can sit on. -/
def fSet (grid : Grid) (start goal : Coord) (h : Heur) : Finset ℤ :=
  ((Finset.range (rows grid * cols grid + 2)) ×ˢ cellsFin grid start).image
    (fun p => (p.1 : ℤ) + h p.2 goal)

/-- Fuel for the outer `while True` loop: the threshold strictly increases
inside the finite set `fSet`, so `fSet.card + 1` iterations suffice. -/
def outerFuel (grid : Grid) (start goal : Coord) (h : Heur) : ℕ :=
  (fSet grid start goal h).card + 1

/-- The `while True` loop of `ida_star`: run `dfs_search` from `start` with
cost `0` and a fresh visited set `{start}`, return `True` on `"FOUND"`,
`False` on `math.inf`, and otherwise continue with the returned threshold. -/
def ida_loop (grid : Grid) (start goal : Coord) (h : Heur) :
    ℕ → ℤ → Option Bool
  | 0 => fun _ => none
  | k + 1 => fun t =>
      match dfs_search grid goal h t (dfsFuel grid) start 0 {start} with
      | none => none
      | some (.found, _) => some true
      | some (.bound .inf, _) => some false
      | some (.bound (.fin q), _) => ida_loop grid start goal h k q

/-- `ida_star(start, goal, grid, heuristic)`: threshold starts at
`heuristic(start, goal)`; the fuel theorems show the `getD false` default is
never taken. -/
def ida_star (start goal : Coord) (grid : Grid) (h : Heur) : Bool :=
  (ida_loop grid start goal h (outerFuel grid start goal h) (h start goal)).getD false

/-- `IsPath grid goal visited c l`: `l` lists the successive cells of a
4-directional walk from `c` to `goal`; every cell after `c` is in bounds,
unblocked and outside `visited`.  (The Python search never examines the
occupancy of the cell it starts from, so `c` itself is unconstrained.) -/
def IsPath (grid : Grid) (goal : Coord) (visited : Finset Coord) :
    Coord → List Coord → Prop
  | c, [] => c = goal
  | c, d :: rest =>
      d ∈ nbrList c ∧ InBounds grid d ∧ cellAt grid d ≠ 1 ∧ d ∉ visited ∧
        IsPath grid goal visited d rest

instance IsPath.instDec (grid : Grid) (goal : Coord) (visited : Finset Coord) :
    ∀ (c : Coord) (l : List Coord), Decidable (IsPath grid goal visited c l)
  | c, [] => by unfold IsPath; infer_instance
  | c, d :: rest => by
      have := IsPath.instDec grid goal visited d rest
      unfold IsPath; infer_instance

/-- A heuristic is admissible when it never exceeds the length of any
4-directional walk through free cells. -/
def Admissible (grid : Grid) (h : Heur) : Prop :=
  ∀ (a b : Coord) (l : List Coord), IsPath grid b ∅ a l → h a b ≤ l.length

/-- Lexicographic comparison of heap entries `(f_score, g, node)`, as Python
compares the tuples pushed by `AStar.search`. -/
def tupLt (x y : ℤ × ℕ × Coord) : Prop :=
  x.1 < y.1 ∨ (x.1 = y.1 ∧ (x.2.1 < y.2.1 ∨ (x.2.1 = y.2.1 ∧
    (x.2.2.1 < y.2.2.1 ∨ (x.2.2.1 = y.2.2.1 ∧ x.2.2.2 < y.2.2.2)))))

instance (x y : ℤ × ℕ × Coord) : Decidable (tupLt x y) := by
  unfold tupLt; infer_instance

/-- Smallest entry so far, scanning a list (the element `heappop` returns). -/
def listMinT : List (ℤ × ℕ × Coord) → (ℤ × ℕ × Coord) → (ℤ × ℕ × Coord)
  | [], acc => acc
  | x :: rest, acc => listMinT rest (if tupLt x acc then x else acc)

/-- `heapq.heappop` on the multiset of entries: remove and return the
smallest entry. -/
def popMin (l : List (ℤ × ℕ × Coord)) :
    Option ((ℤ × ℕ × Coord) × List (ℤ × ℕ × Coord)) :=
  match l with
  | [] => none
  | x :: rest =>
      let m := listMinT rest x
      some (m, l.erase m)

/-- The loop state of `AStar.search`: the heap `open_set`, the `came_from`
map (kept as an association list), the `g_score` and `f_score` dictionaries,
the closed set `visited`, and the `nodes_expanded` counter. -/
structure AState where
  openL : List (ℤ × ℕ × Coord)
  cameFrom : List (Coord × Coord)
  gScore : Coord → Option ℕ
  fScore : Coord → Option ℤ
  visited : Finset Coord
  expanded : ℕ

/-- The update body of `AStar.search` when `tentative_g` improves on
`g_score[neighbor]`: record the parent, update both score maps, and push
the neighbour unless it is already closed. -/
def aUpdate (h : Heur) (goal current nb : Coord) (tg : ℕ) (st : AState) :
    AState :=
  let fv : ℤ := (tg : ℤ) + h nb goal
  { st with
    cameFrom := (nb, current) :: st.cameFrom
    gScore := fun c => if c = nb then some tg else st.gScore c
    fScore := fun c => if c = nb then some fv else st.fScore c
    openL := if nb ∉ st.visited then (fv, tg, nb) :: st.openL else st.openL }

/-- The neighbour loop of `AStar.search` (`tentative_g = g_score[current] + 1`;
the popped `current` always has a `g_score` entry, see `AInv`). -/
def astep (grid : Grid) (goal : Coord) (h : Heur) (current : Coord) :
    List Coord → AState → AState
  | [], st => st
  | nb :: rest, st =>
    if InBounds grid nb then
      if cellAt grid nb = 1 then astep grid goal h current rest st
      else
        let tg : ℕ := (st.gScore current).getD 0 + 1
        match st.gScore nb with
        | none =>
            astep grid goal h current rest (aUpdate h goal current nb tg st)
        | some v =>
            if tg < v then
              astep grid goal h current rest (aUpdate h goal current nb tg st)
            else astep grid goal h current rest st
    else astep grid goal h current rest st

/-- The `while open_set:` loop of `AStar.search`, fuelled: pop the smallest
entry, count it, test the goal, close it, and relax its neighbours. -/
def aloop (grid : Grid) (goal : Coord) (h : Heur) : ℕ → AState → Option Bool
  | 0 => fun _ => none
  | fuel + 1 => fun st =>
      match popMin st.openL with
      | none => some false
      | some (e, rest) =>
          let st₁ : AState :=
            { st with openL := rest, expanded := st.expanded + 1 }
          if e.2.2 = goal then some true
          else
            let st₂ : AState :=
              { st₁ with visited := insert e.2.2 st₁.visited }
            aloop grid goal h fuel
              (astep grid goal h e.2.2 (nbrList e.2.2) st₂)

/-- Fuel that always suffices for the A* loop (see `aloop_correct`). -/
def aFuel (grid : Grid) : ℕ :=
  5 * ((rows grid * cols grid + 1) * (rows grid * cols grid + 2)) + 3

/-- The state `AStar.search` starts from: the start entry
`(0 + heuristic(start, goal), 0, start)` on the heap,
`g_score = {start: 0}` and `f_score = {start: heuristic(start, goal)}`. -/
def aInit (h : Heur) (start goal : Coord) : AState :=
  { openL := [((0 : ℤ) + h start goal, 0, start)]
    cameFrom := []
    gScore := fun c => if c = start then some 0 else none
    fScore := fun c => if c = start then some (h start goal) else none
    visited := ∅
    expanded := 0 }

namespace AStar

/-- `AStar(heuristic).search(start, goal, grid)` from
`examples/comparison_a_star.py`; the fuel theorems show the `getD false`
default is never taken. -/
def search (h : Heur) (start goal : Coord) (grid : Grid) : Bool :=
  (aloop grid goal h (aFuel grid) (aInit h start goal)).getD false

end AStar

/-- Strict upper bound on every value `g_score` ever stores. -/
def gBig (grid : Grid) : ℕ := rows grid * cols grid + 2

/-- Contribution of one cell to the termination potential: its `g_score`
value, or `gBig` while it has none. -/
def gVal (grid : Grid) (st : AState) (c : Coord) : ℕ :=
  match st.gScore c with
  | some v => v
  | none => gBig grid

/-- Termination potential of the A* loop: every relaxation strictly lowers
a `gVal`, and every pop shortens the heap. -/
def aPot (grid : Grid) (start : Coord) (st : AState) : ℕ :=
  5 * (cellsFin grid start).sum (gVal grid st) + st.openL.length

/-- The keys of the `g_score` dictionary. -/
def keysFin (grid : Grid) (start : Coord) (st : AState) : Finset Coord :=
  (cellsFin grid start).filter (fun c => (st.gScore c).isSome)

/-- The part of the A* loop invariant the neighbour loop preserves:
all keys are known cells, key values are below the key count, heap nodes
have keys, keys are on the heap or closed, and heap nodes are reachable. -/
structure AInvPart (grid : Grid) (start : Coord) (st : AState) : Prop where
  keysIn : ∀ c, (st.gScore c).isSome → c ∈ cellsFin grid start
  keyBound : ∀ c v, st.gScore c = some v → v < (keysFin grid start st).card
  openKeys : ∀ e ∈ st.openL, (st.gScore e.2.2).isSome
  keysLoc : ∀ c, (st.gScore c).isSome →
    (∃ e ∈ st.openL, e.2.2 = c) ∨ c ∈ st.visited
  openReach : ∀ e ∈ st.openL, ∃ l, IsPath grid e.2.2 ∅ start l

/-- The full A* loop invariant. -/
structure AInv (grid : Grid) (start goal : Coord) (st : AState) : Prop where
  part : AInvPart grid start st
  visClosed : ∀ c ∈ st.visited, ∀ nb ∈ nbrList c, InBounds grid nb →
    cellAt grid nb ≠ 1 → (st.gScore nb).isSome
  goalOut : goal ∉ st.visited
  startKey : (st.gScore start).isSome

/-- `g + h` can only exceed the threshold when the result is the finite
bound `t < q`; `ECost.Gt e t` states that `e` is `math.inf` or exceeds `t`. -/
def ECost.Gt (e : ECost) (t : ℤ) : Prop :=
  match e with
  | .inf => True
  | .fin q => t < q

theorem ECost.minE_gt {m b : ECost} {t : ℤ} (hm : m.Gt t) (hb : b.Gt t) :
    (m.minE b).Gt t := by
  cases m with
  | inf =>
      cases b with
      | inf => trivial
      | fin b => simp only [ECost.minE]; exact hb
  | fin a =>
      cases b with
      | inf => simpa [ECost.minE, ECost.Gt] using hm
      | fin b =>
          simp only [ECost.minE, ECost.Gt] at hm hb ⊢
          exact lt_min hm hb

theorem ECost.minE_eq_inf {m b : ECost} :
    m.minE b = .inf ↔ m = .inf ∧ b = .inf := by
  cases m <;> cases b <;> simp [ECost.minE]

theorem self_not_mem_nbrList (c : Coord) : c ∉ nbrList c := by
  simp only [nbrList, List.mem_cons, List.not_mem_nil, or_false, Prod.ext_iff]
  omega

theorem mem_nbrList_symm {c d : Coord} (hd : d ∈ nbrList c) : c ∈ nbrList d := by
  simp only [nbrList, List.mem_cons, List.not_mem_nil, or_false, Prod.ext_iff] at hd ⊢
  omega

theorem mem_boundsFin {grid : Grid} {c : Coord} :
    c ∈ boundsFin grid ↔ InBounds grid c := by
  simp only [boundsFin, Finset.mem_image, Finset.mem_product, Finset.mem_range,
    InBounds, Prod.exists]
  constructor
  · rintro ⟨a, b, ⟨ha, hb⟩, rfl⟩
    refine ⟨by positivity, ?_, by positivity, ?_⟩ <;> simp_all [Int.ofNat_lt]
  · rintro ⟨h1, h2, h3, h4⟩
    exact ⟨c.1.toNat, c.2.toNat, ⟨by omega, by omega⟩, by simp [Prod.ext_iff]; omega⟩

theorem mem_cellsFin_of_inBounds {grid : Grid} {start c : Coord}
    (hc : InBounds grid c) : c ∈ cellsFin grid start := by
  simp [cellsFin, mem_boundsFin.2 hc]

theorem card_cellsFin_le (grid : Grid) (start : Coord) :
    (cellsFin grid start).card ≤ rows grid * cols grid + 1 := by
  have h1 : (boundsFin grid).card ≤ rows grid * cols grid := by
    calc (boundsFin grid).card
        ≤ ((Finset.range (rows grid)) ×ˢ (Finset.range (cols grid))).card :=
          Finset.card_image_le
      _ = rows grid * cols grid := by simp [Finset.card_product]
  calc (cellsFin grid start).card ≤ (boundsFin grid).card + 1 :=
        Finset.card_insert_le _ _
    _ ≤ rows grid * cols grid + 1 := by omega

theorem IsPath_nil {grid : Grid} {goal : Coord} {v : Finset Coord} {c : Coord} :
    IsPath grid goal v c [] ↔ c = goal := Iff.rfl

theorem IsPath_cons {grid : Grid} {goal : Coord} {v : Finset Coord} {c d : Coord}
    {rest : List Coord} :
    IsPath grid goal v c (d :: rest) ↔
      d ∈ nbrList c ∧ InBounds grid d ∧ cellAt grid d ≠ 1 ∧ d ∉ v ∧
        IsPath grid goal v d rest := Iff.rfl

/-- Avoiding fewer cells is easier. -/
theorem IsPath.mono {grid : Grid} {goal : Coord} {v w : Finset Coord}
    (hvw : w ⊆ v) : ∀ {c : Coord} {l : List Coord},
    IsPath grid goal v c l → IsPath grid goal w c l := by
  intro c l
  induction l generalizing c with
  | nil => exact fun hp => hp
  | cons d rest ih =>
      rintro ⟨h1, h2, h3, h4, h5⟩
      exact ⟨h1, h2, h3, fun hmem => h4 (hvw hmem), ih h5⟩

/-- A path that never touches `y` still works when `y` joins the avoided set. -/
theorem IsPath.insert_of_not_mem {grid : Grid} {goal : Coord} {v : Finset Coord}
    {y : Coord} : ∀ {c : Coord} {l : List Coord},
    IsPath grid goal v c l → (∀ x ∈ l, x ≠ y) → IsPath grid goal (insert y v) c l := by
  intro c l
  induction l generalizing c with
  | nil => exact fun hp _ => hp
  | cons d rest ih =>
      rintro ⟨h1, h2, h3, h4, h5⟩ hy
      refine ⟨h1, h2, h3, ?_, ih h5 fun x hx => hy x (List.mem_cons_of_mem _ hx)⟩
      simp only [Finset.mem_insert, not_or]
      exact ⟨hy d (List.mem_cons_self _ _), h4⟩

/-- Any suffix of a path is a path from the cell it starts at. -/
theorem IsPath.suffix {grid : Grid} {goal : Coord} {v : Finset Coord} {b : Coord}
    : ∀ {s : List Coord} {a : Coord} {t : List Coord},
    IsPath grid goal v a (s ++ b :: t) → IsPath grid goal v b t := by
  intro s
  induction s with
  | nil => rintro a t ⟨_, _, _, _, h5⟩; exact h5
  | cons d rest ih => rintro a t ⟨_, _, _, _, h5⟩; exact ih h5

/-- A path from `c` can be shortened so that it never returns to `c`. -/
theorem IsPath.self_avoid {grid : Grid} {goal : Coord} {v : Finset Coord} :
    ∀ (n : ℕ) {c : Coord} {l : List Coord}, l.length ≤ n →
    IsPath grid goal v c l →
    ∃ l', l'.length ≤ l.length ∧ IsPath grid goal (insert c v) c l' := by
  intro n
  induction n with
  | zero =>
      intro c l hlen hp
      match l, hlen with
      | [], _ => exact ⟨[], le_refl _, hp⟩
  | succ n ih =>
      intro c l hlen hp
      by_cases hc : c ∈ l
      · obtain ⟨s, t, rfl⟩ := List.append_of_mem hc
        have ht : IsPath grid goal v c t := IsPath.suffix hp
        have hlt : t.length ≤ n := by
          simp only [List.length_append, List.length_cons] at hlen; omega
        obtain ⟨l', hl', hp'⟩ := ih hlt ht
        refine ⟨l', le_trans hl' ?_, hp'⟩
        simp only [List.length_append, List.length_cons]; omega
      · exact ⟨l, le_refl _, hp.insert_of_not_mem fun x hx hxy => hc (hxy ▸ hx)⟩

/-- Extend a path by one extra step at the goal end. -/
theorem IsPath.extend {grid : Grid} {v : Finset Coord} {n n' : Coord}
    (h1 : n' ∈ nbrList n) (h2 : InBounds grid n') (h3 : cellAt grid n' ≠ 1)
    (h4 : n' ∉ v) : ∀ {s : Coord} {l : List Coord},
    IsPath grid n v s l → IsPath grid n' v s (l ++ [n']) := by
  intro s l
  induction l generalizing s with
  | nil => rintro rfl; exact ⟨h1, h2, h3, h4, rfl⟩
  | cons d rest ih =>
      rintro ⟨g1, g2, g3, g4, g5⟩
      exact ⟨g1, g2, g3, g4, ih g5⟩

theorem ECost.minE_fin_cases {m b : ECost} {q : ℤ} (hq : m.minE b = .fin q) :
    m = .fin q ∨ b = .fin q := by
  cases m with
  | inf => cases b <;> simp_all [ECost.minE]
  | fin a =>
      cases b with
      | inf => simp_all [ECost.minE]
      | fin b =>
          simp only [ECost.minE, ECost.fin.injEq] at hq ⊢
          rcases min_choice a b with hc | hc <;> [left; right] <;> omega

/-- Master lemma for the neighbour loop: the visited set is restored whenever
a numeric bound is returned, a `"FOUND"` result exhibits a path through one
eligible neighbour (and the final visited set is the input plus that path),
and the result agrees with the pure loop. -/
theorem dfs_loop_master
    (recurse : Coord → ℕ → Finset Coord → Option (Res × Finset Coord))
    (frec : Coord → ℕ → Finset Coord → Option Res)
    (grid : Grid) (goal : Coord) (g : ℕ)
    (hbound : ∀ nb g' v b v', recurse nb g' v = some (.bound b, v') → v' = v)
    (hfound : ∀ nb g' v v', recurse nb g' v = some (.found, v') →
        ∃ l, IsPath grid goal v nb l ∧ v' = v ∪ l.toFinset)
    (hproj : ∀ nb g' v, (recurse nb g' v).map Prod.fst = frec nb g' v) :
    ∀ (ns : List Coord) (visited : Finset Coord) (m : ECost),
      (∀ b v', dfs_loop recurse grid g ns visited m = some (.bound b, v') →
        v' = visited) ∧
      (∀ v', dfs_loop recurse grid g ns visited m = some (.found, v') →
        ∃ nb, nb ∈ ns ∧ InBounds grid nb ∧ cellAt grid nb ≠ 1 ∧ nb ∉ visited ∧
          ∃ l, IsPath grid goal (insert nb visited) nb l ∧
            v' = insert nb visited ∪ l.toFinset) ∧
      ((dfs_loop recurse grid g ns visited m).map Prod.fst =
        dfs_floop frec grid g visited ns m) := by
  intro ns
  induction ns with
  | nil =>
      intro visited m
      refine ⟨?_, ?_, ?_⟩
      · intro b v' hb
        simp only [dfs_loop, Option.some.injEq, Prod.mk.injEq] at hb
        exact hb.2.symm
      · intro v' hb
        simp only [dfs_loop, Option.some.injEq, Prod.mk.injEq] at hb
        exact absurd hb.1 (by simp)
      · simp [dfs_loop, dfs_floop]
  | cons nb rest ih =>
      intro visited m
      by_cases hin : InBounds grid nb
      · by_cases hcell : cellAt grid nb = 1
        · have heq : dfs_loop recurse grid g (nb :: rest) visited m =
              dfs_loop recurse grid g rest visited m := by
            simp [dfs_loop, hin, hcell]
          have heqf : dfs_floop frec grid g visited (nb :: rest) m =
              dfs_floop frec grid g visited rest m := by
            simp [dfs_floop, hin, hcell]
          refine ⟨?_, ?_, ?_⟩
          · intro b v' hb; exact (ih visited m).1 b v' (heq ▸ hb)
          · intro v' hb
            obtain ⟨nb', h1, h2⟩ := (ih visited m).2.1 v' (heq ▸ hb)
            exact ⟨nb', List.mem_cons_of_mem _ h1, h2⟩
          · rw [heq, heqf]; exact (ih visited m).2.2
        · by_cases hmem : nb ∈ visited
          · have heq : dfs_loop recurse grid g (nb :: rest) visited m =
                dfs_loop recurse grid g rest visited m := by
              simp [dfs_loop, hin, hcell, hmem]
            have heqf : dfs_floop frec grid g visited (nb :: rest) m =
                dfs_floop frec grid g visited rest m := by
              simp [dfs_floop, hin, hcell, hmem]
            refine ⟨?_, ?_, ?_⟩
            · intro b v' hb; exact (ih visited m).1 b v' (heq ▸ hb)
            · intro v' hb
              obtain ⟨nb', h1, h2⟩ := (ih visited m).2.1 v' (heq ▸ hb)
              exact ⟨nb', List.mem_cons_of_mem _ h1, h2⟩
            · rw [heq, heqf]; exact (ih visited m).2.2
          · have heq : dfs_loop recurse grid g (nb :: rest) visited m =
                match recurse nb (g + 1) (insert nb visited) with
                | none => none
                | some (.found, v₁) => some (.found, v₁)
                | some (.bound b, v₁) =>
                    dfs_loop recurse grid g rest (v₁.erase nb) (m.minE b) := by
              simp [dfs_loop, hin, hcell, hmem]
            have heqf : dfs_floop frec grid g visited (nb :: rest) m =
                match frec nb (g + 1) (insert nb visited) with
                | none => none
                | some .found => some .found
                | some (.bound b) =>
                    dfs_floop frec grid g visited rest (m.minE b) := by
              simp [dfs_floop, hin, hcell, hmem]
            rcases hr : recurse nb (g + 1) (insert nb visited) with _ | ⟨r, v₁⟩
            · refine ⟨?_, ?_, ?_⟩
              · intro b v' hb; rw [heq, hr] at hb; exact absurd hb (by simp)
              · intro v' hb; rw [heq, hr] at hb; exact absurd hb (by simp)
              · have : frec nb (g + 1) (insert nb visited) = none := by
                  rw [← hproj, hr]; rfl
                rw [heq, hr, heqf, this]; rfl
            · cases r with
              | found =>
                  refine ⟨?_, ?_, ?_⟩
                  · intro b v' hb
                    rw [heq, hr] at hb
                    simp only [Option.some.injEq, Prod.mk.injEq] at hb
                    exact absurd hb.1 (by simp)
                  · intro v' hb
                    rw [heq, hr] at hb
                    simp only [Option.some.injEq, Prod.mk.injEq] at hb
                    obtain ⟨l, hl, hv⟩ := hfound nb (g + 1) (insert nb visited) v₁ hr
                    exact ⟨nb, List.mem_cons_self _ _, hin, hcell, hmem,
                      l, hl, hb.2 ▸ hv⟩
                  · have : frec nb (g + 1) (insert nb visited) = some .found := by
                      rw [← hproj, hr]; rfl
                    rw [heq, hr, heqf, this]; rfl
              | bound b =>
                  have hv₁ : v₁ = insert nb visited :=
                    hbound nb (g + 1) (insert nb visited) b v₁ hr
                  have herase : v₁.erase nb = visited := by
                    rw [hv₁, Finset.erase_insert hmem]
                  have heq2 : dfs_loop recurse grid g (nb :: rest) visited m =
                      dfs_loop recurse grid g rest (v₁.erase nb) (m.minE b) := by
                    rw [heq, hr]
                  rw [herase] at heq2
                  have : frec nb (g + 1) (insert nb visited) =
                      some (.bound b) := by
                    rw [← hproj, hr]; rfl
                  have heqf2 : dfs_floop frec grid g visited (nb :: rest) m =
                      dfs_floop frec grid g visited rest (m.minE b) := by
                    rw [heqf, this]
                  refine ⟨?_, ?_, ?_⟩
                  · intro b' v' hb
                    exact (ih visited (m.minE b)).1 b' v' (heq2 ▸ hb)
                  · intro v' hb
                    obtain ⟨nb', h1, h2⟩ :=
                      (ih visited (m.minE b)).2.1 v' (heq2 ▸ hb)
                    exact ⟨nb', List.mem_cons_of_mem _ h1, h2⟩
                  · rw [heq2, heqf2]; exact (ih visited (m.minE b)).2.2
      · have heq : dfs_loop recurse grid g (nb :: rest) visited m =
            dfs_loop recurse grid g rest visited m := by
          simp [dfs_loop, hin]
        have heqf : dfs_floop frec grid g visited (nb :: rest) m =
            dfs_floop frec grid g visited rest m := by
          simp [dfs_floop, hin]
        refine ⟨?_, ?_, ?_⟩
        · intro b v' hb; exact (ih visited m).1 b v' (heq ▸ hb)
        · intro v' hb
          obtain ⟨nb', h1, h2⟩ := (ih visited m).2.1 v' (heq ▸ hb)
          exact ⟨nb', List.mem_cons_of_mem _ h1, h2⟩
        · rw [heq, heqf]; exact (ih visited m).2.2

/-- Master lemma for `dfs_search`: a numeric-bound return restores the
visited set exactly (every `visited.add` was matched by `visited.remove`),
a `"FOUND"` return exhibits a path from the node to the goal avoiding the
input visited set (and the final set is exactly the input plus that path),
and forgetting the threaded set gives the pure `dfs_fun`. -/
theorem dfs_search_master (grid : Grid) (goal : Coord) (h : Heur) (t : ℤ) :
    ∀ (fuel : ℕ) (node : Coord) (g : ℕ) (visited : Finset Coord),
      (∀ b v', dfs_search grid goal h t fuel node g visited =
          some (.bound b, v') → v' = visited) ∧
      (∀ v', dfs_search grid goal h t fuel node g visited =
          some (.found, v') →
        ∃ l, IsPath grid goal visited node l ∧ v' = visited ∪ l.toFinset) ∧
      ((dfs_search grid goal h t fuel node g visited).map Prod.fst =
        dfs_fun grid goal h t fuel node g visited) := by
  intro fuel
  induction fuel with
  | zero =>
      intro node g visited
      refine ⟨?_, ?_, ?_⟩ <;> simp [dfs_search, dfs_fun]
  | succ fuel ih =>
      intro node g visited
      by_cases ht : t < (g : ℤ) + h node goal
      · have heq : dfs_search grid goal h t (fuel + 1) node g visited =
            some (.bound (.fin ((g : ℤ) + h node goal)), visited) := by
          simp [dfs_search, ht]
        have heqf : dfs_fun grid goal h t (fuel + 1) node g visited =
            some (.bound (.fin ((g : ℤ) + h node goal))) := by
          simp [dfs_fun, ht]
        refine ⟨?_, ?_, ?_⟩
        · intro b v' hb
          rw [heq] at hb
          simp only [Option.some.injEq, Prod.mk.injEq] at hb
          exact hb.2.symm
        · intro v' hb
          rw [heq] at hb
          simp only [Option.some.injEq, Prod.mk.injEq] at hb
          exact absurd hb.1 (by simp)
        · rw [heq, heqf]; rfl
      · by_cases hgoal : node = goal
        · have heq : dfs_search grid goal h t (fuel + 1) node g visited =
              some (.found, visited) := by
            simp only [dfs_search]
            rw [if_neg ht, if_pos hgoal]
          have heqf : dfs_fun grid goal h t (fuel + 1) node g visited =
              some .found := by
            simp only [dfs_fun]
            rw [if_neg ht, if_pos hgoal]
          refine ⟨?_, ?_, ?_⟩
          · intro b v' hb
            rw [heq] at hb
            simp only [Option.some.injEq, Prod.mk.injEq] at hb
            exact absurd hb.1 (by simp)
          · intro v' hb
            rw [heq] at hb
            simp only [Option.some.injEq, Prod.mk.injEq] at hb
            exact ⟨[], hgoal, by simp [hb.2.symm]⟩
          · rw [heq, heqf]; rfl
        · have heq : dfs_search grid goal h t (fuel + 1) node g visited =
              dfs_loop (dfs_search grid goal h t fuel) grid g (nbrList node)
                visited .inf := by
            simp only [dfs_search]
            rw [if_neg ht, if_neg hgoal]
          have heqf : dfs_fun grid goal h t (fuel + 1) node g visited =
              dfs_floop (dfs_fun grid goal h t fuel) grid g visited
                (nbrList node) .inf := by
            simp only [dfs_fun]
            rw [if_neg ht, if_neg hgoal]
          have hm := dfs_loop_master (dfs_search grid goal h t fuel)
            (dfs_fun grid goal h t fuel) grid goal g
            (fun nb g' v b v' => (ih nb g' v).1 b v')
            (fun nb g' v v' => (ih nb g' v).2.1 v')
            (fun nb g' v => (ih nb g' v).2.2)
            (nbrList node) visited .inf
          refine ⟨?_, ?_, ?_⟩
          · intro b v' hb
            exact hm.1 b v' (heq ▸ hb)
          · intro v' hb
            obtain ⟨nb, hnb, hin, hcell, hmem, l, hl, hv⟩ :=
              hm.2.1 v' (heq ▸ hb)
            refine ⟨nb :: l, ⟨hnb, hin, hcell, hmem,
              hl.mono (Finset.subset_insert _ _)⟩, ?_⟩
            rw [hv]
            ext x
            simp only [Finset.mem_union, Finset.mem_insert, List.toFinset_cons,
              List.mem_toFinset, Finset.mem_union]
            tauto
          · rw [heq, heqf]; exact hm.2.2

theorem dfs_search_bound_restores {grid : Grid} {goal : Coord} {h : Heur}
    {t : ℤ} {fuel : ℕ} {node : Coord} {g : ℕ} {visited v' : Finset Coord}
    {b : ECost}
    (hb : dfs_search grid goal h t fuel node g visited = some (.bound b, v')) :
    v' = visited :=
  (dfs_search_master grid goal h t fuel node g visited).1 b v' hb

theorem dfs_search_found_char {grid : Grid} {goal : Coord} {h : Heur}
    {t : ℤ} {fuel : ℕ} {node : Coord} {g : ℕ} {visited v' : Finset Coord}
    (hb : dfs_search grid goal h t fuel node g visited = some (.found, v')) :
    ∃ l, IsPath grid goal visited node l ∧ v' = visited ∪ l.toFinset :=
  (dfs_search_master grid goal h t fuel node g visited).2.1 v' hb

theorem dfs_search_fst (grid : Grid) (goal : Coord) (h : Heur) (t : ℤ)
    (fuel : ℕ) (node : Coord) (g : ℕ) (visited : Finset Coord) :
    (dfs_search grid goal h t fuel node g visited).map Prod.fst =
      dfs_fun grid goal h t fuel node g visited :=
  (dfs_search_master grid goal h t fuel node g visited).2.2

/-- Transfer a pure result back to the threaded model. -/
theorem dfs_fun_to_search {grid : Grid} {goal : Coord} {h : Heur} {t : ℤ}
    {fuel : ℕ} {node : Coord} {g : ℕ} {visited : Finset Coord} {r : Res}
    (hr : dfs_fun grid goal h t fuel node g visited = some r) :
    ∃ v', dfs_search grid goal h t fuel node g visited = some (r, v') := by
  have := dfs_search_fst grid goal h t fuel node g visited
  rw [hr] at this
  rcases hd : dfs_search grid goal h t fuel node g visited with _ | ⟨r', v'⟩
  · rw [hd] at this; exact absurd this (by simp)
  · rw [hd] at this
    simp only [Option.map_some', Option.some.injEq] at this
    subst this
    exact ⟨v', rfl⟩

theorem dfs_search_to_fun {grid : Grid} {goal : Coord} {h : Heur} {t : ℤ}
    {fuel : ℕ} {node : Coord} {g : ℕ} {visited v' : Finset Coord} {r : Res}
    (hr : dfs_search grid goal h t fuel node g visited = some (r, v')) :
    dfs_fun grid goal h t fuel node g visited = some r := by
  have := dfs_search_fst grid goal h t fuel node g visited
  rw [hr] at this
  exact this.symm

theorem dfs_floop_nil {frec : Coord → ℕ → Finset Coord → Option Res}
    {grid : Grid} {g : ℕ} {visited : Finset Coord} {m : ECost} :
    dfs_floop frec grid g visited [] m = some (.bound m) := rfl

theorem dfs_floop_skip {frec : Coord → ℕ → Finset Coord → Option Res}
    {grid : Grid} {g : ℕ} {visited : Finset Coord} {m : ECost} {nb : Coord}
    {rest : List Coord}
    (hskip : ¬ InBounds grid nb ∨ cellAt grid nb = 1 ∨ nb ∈ visited) :
    dfs_floop frec grid g visited (nb :: rest) m =
      dfs_floop frec grid g visited rest m := by
  by_cases hin : InBounds grid nb
  · by_cases hcell : cellAt grid nb = 1
    · simp [dfs_floop, hin, hcell]
    · have hmem : nb ∈ visited := by tauto
      simp [dfs_floop, hin, hcell, hmem]
  · simp [dfs_floop, hin]

theorem dfs_floop_go {frec : Coord → ℕ → Finset Coord → Option Res}
    {grid : Grid} {g : ℕ} {visited : Finset Coord} {m : ECost} {nb : Coord}
    {rest : List Coord} (hin : InBounds grid nb) (hcell : cellAt grid nb ≠ 1)
    (hmem : nb ∉ visited) :
    dfs_floop frec grid g visited (nb :: rest) m =
      match frec nb (g + 1) (insert nb visited) with
      | none => none
      | some .found => some .found
      | some (.bound b) => dfs_floop frec grid g visited rest (m.minE b) := by
  simp [dfs_floop, hin, hcell, hmem]

/-- If the pure loop finishes with `math.inf`, the accumulator was `math.inf`
and every eligible neighbour's recursive call returned `math.inf`. -/
theorem dfs_floop_inf {frec : Coord → ℕ → Finset Coord → Option Res}
    {grid : Grid} {g : ℕ} {visited : Finset Coord} :
    ∀ {ns : List Coord} {m : ECost},
    dfs_floop frec grid g visited ns m = some (.bound .inf) →
      m = .inf ∧ ∀ nb ∈ ns, InBounds grid nb → cellAt grid nb ≠ 1 →
        nb ∉ visited → frec nb (g + 1) (insert nb visited) =
          some (.bound .inf) := by
  intro ns
  induction ns with
  | nil =>
      intro m hm
      rw [dfs_floop_nil] at hm
      simp only [Option.some.injEq, Res.bound.injEq] at hm
      exact ⟨hm, by simp⟩
  | cons nb rest ih =>
      intro m hm
      by_cases hin : InBounds grid nb
      · by_cases hcell : cellAt grid nb = 1
        · rw [dfs_floop_skip (Or.inr (Or.inl hcell))] at hm
          obtain ⟨h1, h2⟩ := ih hm
          refine ⟨h1, ?_⟩
          intro x hx xin xcell xmem
          rcases List.mem_cons.1 hx with rfl | hx'
          · exact absurd hcell xcell
          · exact h2 x hx' xin xcell xmem
        · by_cases hmem : nb ∈ visited
          · rw [dfs_floop_skip (Or.inr (Or.inr hmem))] at hm
            obtain ⟨h1, h2⟩ := ih hm
            refine ⟨h1, ?_⟩
            intro x hx xin xcell xmem
            rcases List.mem_cons.1 hx with rfl | hx'
            · exact absurd hmem xmem
            · exact h2 x hx' xin xcell xmem
          · rw [dfs_floop_go hin hcell hmem] at hm
            rcases hr : frec nb (g + 1) (insert nb visited) with _ | r
            · rw [hr] at hm; exact absurd hm (by simp)
            · cases r with
              | found => rw [hr] at hm; exact absurd hm (by simp)
              | bound b =>
                  rw [hr] at hm
                  obtain ⟨h1, h2⟩ := ih hm
                  obtain ⟨hminf, hbinf⟩ := ECost.minE_eq_inf.1 h1
                  refine ⟨hminf, ?_⟩
                  intro x hx xin xcell xmem
                  rcases List.mem_cons.1 hx with rfl | hx'
                  · rw [hr, hbinf]
                  · exact h2 x hx' xin xcell xmem
      · rw [dfs_floop_skip (Or.inl hin)] at hm
        obtain ⟨h1, h2⟩ := ih hm
        refine ⟨h1, ?_⟩
        intro x hx xin xcell xmem
        rcases List.mem_cons.1 hx with rfl | hx'
        · exact absurd xin hin
        · exact h2 x hx' xin xcell xmem

/-- Exhaustion is sound: if `dfs_fun` returns `math.inf` there is no path
from the node to the goal avoiding the visited set. -/
theorem dfs_fun_inf {grid : Grid} {goal : Coord} {h : Heur} {t : ℤ} :
    ∀ (fuel : ℕ) {node : Coord} {g : ℕ} {visited : Finset Coord},
    dfs_fun grid goal h t fuel node g visited = some (.bound .inf) →
    ∀ l, ¬ IsPath grid goal visited node l := by
  intro fuel
  induction fuel with
  | zero => intro node g visited hd; exact absurd hd (by simp [dfs_fun])
  | succ fuel ih =>
      intro node g visited hd l hp
      by_cases ht : t < (g : ℤ) + h node goal
      · have : dfs_fun grid goal h t (fuel + 1) node g visited =
            some (.bound (.fin ((g : ℤ) + h node goal))) := by
          simp only [dfs_fun]; rw [if_pos ht]
        rw [this] at hd
        simp only [Option.some.injEq, Res.bound.injEq] at hd
        exact absurd hd.symm (by simp)
      · by_cases hgoal : node = goal
        · have : dfs_fun grid goal h t (fuel + 1) node g visited =
              some .found := by
            simp only [dfs_fun]; rw [if_neg ht, if_pos hgoal]
          rw [this] at hd
          exact absurd hd (by simp)
        · have heqf : dfs_fun grid goal h t (fuel + 1) node g visited =
              dfs_floop (dfs_fun grid goal h t fuel) grid g visited
                (nbrList node) .inf := by
            simp only [dfs_fun]; rw [if_neg ht, if_neg hgoal]
          rw [heqf] at hd
          obtain ⟨-, hall⟩ := dfs_floop_inf hd
          cases l with
          | nil => exact hgoal hp
          | cons d restl =>
              obtain ⟨p1, p2, p3, p4, p5⟩ := hp
              have hrec := hall d p1 p2 p3 p4
              obtain ⟨l', -, hp'⟩ :=
                IsPath.self_avoid restl.length (le_refl _) p5
              exact ih hrec l' hp'

/-- Every numeric bound accumulated by the pure loop exceeds the threshold,
provided the accumulator and every recursive bound do. -/
theorem dfs_floop_gt {frec : Coord → ℕ → Finset Coord → Option Res}
    {grid : Grid} {g : ℕ} {visited : Finset Coord} {t : ℤ}
    (hrec : ∀ nb g' v b, frec nb g' v = some (.bound b) → b.Gt t) :
    ∀ {ns : List Coord} {m : ECost}, m.Gt t →
    ∀ {b}, dfs_floop frec grid g visited ns m = some (.bound b) → b.Gt t := by
  intro ns
  induction ns with
  | nil =>
      intro m hm b hb
      rw [dfs_floop_nil] at hb
      simp only [Option.some.injEq, Res.bound.injEq] at hb
      exact hb ▸ hm
  | cons nb rest ih =>
      intro m hm b hb
      by_cases hin : InBounds grid nb
      · by_cases hcell : cellAt grid nb = 1
        · exact ih hm (dfs_floop_skip (Or.inr (Or.inl hcell)) ▸ hb)
        · by_cases hmem : nb ∈ visited
          · exact ih hm (dfs_floop_skip (Or.inr (Or.inr hmem)) ▸ hb)
          · rw [dfs_floop_go hin hcell hmem] at hb
            rcases hr : frec nb (g + 1) (insert nb visited) with _ | r
            · rw [hr] at hb; exact absurd hb (by simp)
            · cases r with
              | found => rw [hr] at hb; exact absurd hb (by simp)
              | bound b' =>
                  rw [hr] at hb
                  exact ih (ECost.minE_gt hm (hrec _ _ _ _ hr)) hb
      · exact ih hm (dfs_floop_skip (Or.inl hin) ▸ hb)

/-- Every numeric bound returned by `dfs_fun` exceeds the threshold it was
run with (`math.inf` trivially, finite bounds strictly). -/
theorem dfs_fun_gt {grid : Grid} {goal : Coord} {h : Heur} {t : ℤ} :
    ∀ (fuel : ℕ) {node : Coord} {g : ℕ} {visited : Finset Coord} {b : ECost},
    dfs_fun grid goal h t fuel node g visited = some (.bound b) → b.Gt t := by
  intro fuel
  induction fuel with
  | zero => intro node g visited b hd; exact absurd hd (by simp [dfs_fun])
  | succ fuel ih =>
      intro node g visited b hd
      by_cases ht : t < (g : ℤ) + h node goal
      · have : dfs_fun grid goal h t (fuel + 1) node g visited =
            some (.bound (.fin ((g : ℤ) + h node goal))) := by
          simp only [dfs_fun]; rw [if_pos ht]
        rw [this] at hd
        simp only [Option.some.injEq, Res.bound.injEq] at hd
        rw [← hd]
        exact ht
      · by_cases hgoal : node = goal
        · have : dfs_fun grid goal h t (fuel + 1) node g visited =
              some .found := by
            simp only [dfs_fun]; rw [if_neg ht, if_pos hgoal]
          rw [this] at hd
          exact absurd hd (by simp)
        · have heqf : dfs_fun grid goal h t (fuel + 1) node g visited =
              dfs_floop (dfs_fun grid goal h t fuel) grid g visited
                (nbrList node) .inf := by
            simp only [dfs_fun]; rw [if_neg ht, if_neg hgoal]
          rw [heqf] at hd
          have hminf : ECost.Gt ECost.inf t := trivial
          exact dfs_floop_gt (fun nb g' v b' => ih) hminf hd

/-- The pure loop never runs out of fuel when every eligible recursive call
has enough. -/
theorem dfs_floop_isSome {frec : Coord → ℕ → Finset Coord → Option Res}
    {grid : Grid} {g : ℕ} {visited : Finset Coord}
    (hrec : ∀ nb g', nb ∈ boundsFin grid → nb ∉ visited →
      (frec nb g' (insert nb visited)).isSome) :
    ∀ {ns : List Coord} {m : ECost},
    (dfs_floop frec grid g visited ns m).isSome := by
  intro ns
  induction ns with
  | nil => intro m; rw [dfs_floop_nil]; rfl
  | cons nb rest ih =>
      intro m
      by_cases hin : InBounds grid nb
      · by_cases hcell : cellAt grid nb = 1
        · rw [dfs_floop_skip (Or.inr (Or.inl hcell))]; exact ih
        · by_cases hmem : nb ∈ visited
          · rw [dfs_floop_skip (Or.inr (Or.inr hmem))]; exact ih
          · rw [dfs_floop_go hin hcell hmem]
            have hnb : nb ∈ boundsFin grid := mem_boundsFin.2 hin
            have := hrec nb (g + 1) hnb hmem
            rcases hr : frec nb (g + 1) (insert nb visited) with _ | r
            · rw [hr] at this; exact absurd this (by simp)
            · cases r with
              | found => rfl
              | bound b => exact ih
      · rw [dfs_floop_skip (Or.inl hin)]; exact ih

/-- `dfs_fun` completes whenever the fuel exceeds the number of in-bounds
cells not yet visited: each nested call puts a fresh in-bounds cell into
the visited set. -/
theorem dfs_fun_isSome {grid : Grid} {goal : Coord} {h : Heur} {t : ℤ} :
    ∀ (fuel : ℕ) (node : Coord) (g : ℕ) (visited : Finset Coord),
    (boundsFin grid \ visited).card < fuel →
    (dfs_fun grid goal h t fuel node g visited).isSome := by
  intro fuel
  induction fuel with
  | zero => intro node g visited hcard; omega
  | succ fuel ih =>
      intro node g visited hcard
      by_cases ht : t < (g : ℤ) + h node goal
      · have : dfs_fun grid goal h t (fuel + 1) node g visited =
            some (.bound (.fin ((g : ℤ) + h node goal))) := by
          simp only [dfs_fun]; rw [if_pos ht]
        rw [this]; rfl
      · by_cases hgoal : node = goal
        · have : dfs_fun grid goal h t (fuel + 1) node g visited =
              some .found := by
            simp only [dfs_fun]; rw [if_neg ht, if_pos hgoal]
          rw [this]; rfl
        · have heqf : dfs_fun grid goal h t (fuel + 1) node g visited =
              dfs_floop (dfs_fun grid goal h t fuel) grid g visited
                (nbrList node) .inf := by
            simp only [dfs_fun]; rw [if_neg ht, if_neg hgoal]
          rw [heqf]
          refine dfs_floop_isSome ?_
          intro nb g' hnb hnv
          refine ih nb g' (insert nb visited) ?_
          have hmem2 : nb ∈ boundsFin grid \ visited :=
            Finset.mem_sdiff.2 ⟨hnb, hnv⟩
          rw [Finset.sdiff_insert, Finset.card_erase_of_mem hmem2]
          have hpos : 0 < (boundsFin grid \ visited).card :=
            Finset.card_pos.2 ⟨nb, hmem2⟩
          omega

/-- Finite bounds produced by the pure loop come from the accumulator or
from a recursive call. -/
theorem dfs_floop_fin_mem {frec : Coord → ℕ → Finset Coord → Option Res}
    {grid : Grid} {g : ℕ} {visited : Finset Coord} {F : Finset ℤ}
    (hrec : ∀ nb q, nb ∈ boundsFin grid → nb ∉ visited →
      frec nb (g + 1) (insert nb visited) = some (.bound (.fin q)) → q ∈ F) :
    ∀ {ns : List Coord} {m b : ECost}, (∀ q, m = .fin q → q ∈ F) →
    dfs_floop frec grid g visited ns m = some (.bound b) →
    ∀ q, b = .fin q → q ∈ F := by
  intro ns
  induction ns with
  | nil =>
      intro m b hm hb
      rw [dfs_floop_nil] at hb
      simp only [Option.some.injEq, Res.bound.injEq] at hb
      exact hb ▸ hm
  | cons nb rest ih =>
      intro m b hm hb
      by_cases hin : InBounds grid nb
      · by_cases hcell : cellAt grid nb = 1
        · exact ih hm (dfs_floop_skip (Or.inr (Or.inl hcell)) ▸ hb)
        · by_cases hmem : nb ∈ visited
          · exact ih hm (dfs_floop_skip (Or.inr (Or.inr hmem)) ▸ hb)
          · rw [dfs_floop_go hin hcell hmem] at hb
            rcases hr : frec nb (g + 1) (insert nb visited) with _ | r
            · rw [hr] at hb; exact absurd hb (by simp)
            · cases r with
              | found => rw [hr] at hb; exact absurd hb (by simp)
              | bound b' =>
                  rw [hr] at hb
                  refine ih ?_ hb
                  intro q hq
                  rcases ECost.minE_fin_cases hq with hc | hc
                  · exact hm q hc
                  · exact hrec nb q (mem_boundsFin.2 hin) hmem (hc ▸ hr)
      · exact ih hm (dfs_floop_skip (Or.inl hin) ▸ hb)

/-- Every finite bound `dfs_fun` returns is an f-cost from `fSet`:
the depth stays below the number of cells the walk can sit on. -/
theorem dfs_fun_fin_mem {grid : Grid} {start goal : Coord} {h : Heur} {t : ℤ} :
    ∀ (fuel : ℕ) {node : Coord} {g : ℕ} {visited : Finset Coord} {q : ℤ},
    node ∈ cellsFin grid start → visited ⊆ cellsFin grid start →
    g + (cellsFin grid start \ visited).card ≤ (cellsFin grid start).card →
    dfs_fun grid goal h t fuel node g visited = some (.bound (.fin q)) →
    q ∈ fSet grid start goal h := by
  intro fuel
  induction fuel with
  | zero =>
      intro node g visited q _ _ _ hd
      exact absurd hd (by simp [dfs_fun])
  | succ fuel ih =>
      intro node g visited q hnode hvis hg hd
      by_cases ht : t < (g : ℤ) + h node goal
      · have : dfs_fun grid goal h t (fuel + 1) node g visited =
            some (.bound (.fin ((g : ℤ) + h node goal))) := by
          simp only [dfs_fun]; rw [if_pos ht]
        rw [this] at hd
        simp only [Option.some.injEq, Res.bound.injEq, ECost.fin.injEq] at hd
        have hcard := card_cellsFin_le grid start
        refine Finset.mem_image.2 ⟨(g, node), Finset.mem_product.2
          ⟨Finset.mem_range.2 (by omega), hnode⟩, ?_⟩
        exact hd
      · by_cases hgoal : node = goal
        · have : dfs_fun grid goal h t (fuel + 1) node g visited =
              some .found := by
            simp only [dfs_fun]; rw [if_neg ht, if_pos hgoal]
          rw [this] at hd
          exact absurd hd (by simp)
        · have heqf : dfs_fun grid goal h t (fuel + 1) node g visited =
              dfs_floop (dfs_fun grid goal h t fuel) grid g visited
                (nbrList node) .inf := by
            simp only [dfs_fun]; rw [if_neg ht, if_neg hgoal]
          rw [heqf] at hd
          refine dfs_floop_fin_mem ?_ (by simp) hd q rfl
          intro nb q' hnb hnv hr
          have hnbS : nb ∈ cellsFin grid start := by
            simp [cellsFin, Finset.mem_insert, hnb]
          have hmem2 : nb ∈ cellsFin grid start \ visited :=
            Finset.mem_sdiff.2 ⟨hnbS, hnv⟩
          refine ih hnbS (Finset.insert_subset hnbS hvis) ?_ hr
          rw [Finset.sdiff_insert, Finset.card_erase_of_mem hmem2]
          have hpos : 0 < (cellsFin grid start \ visited).card :=
            Finset.card_pos.2 ⟨nb, hmem2⟩
          omega

/-- Unfold one outer iteration through the pure search. -/
theorem ida_loop_succ (grid : Grid) (start goal : Coord) (h : Heur)
    (k : ℕ) (t : ℤ) :
    ida_loop grid start goal h (k + 1) t =
      match dfs_fun grid goal h t (dfsFuel grid) start 0 {start} with
      | none => none
      | some .found => some true
      | some (.bound .inf) => some false
      | some (.bound (.fin q)) => ida_loop grid start goal h k q := by
  have hfst := dfs_search_fst grid goal h t (dfsFuel grid) start 0 {start}
  rcases hd : dfs_search grid goal h t (dfsFuel grid) start 0 {start}
    with _ | ⟨r, v'⟩
  · rw [hd] at hfst
    simp only [Option.map_none'] at hfst
    simp only [ida_loop, hd, ← hfst]
  · rw [hd] at hfst
    simp only [Option.map_some'] at hfst
    cases r with
    | found => simp only [ida_loop, hd, ← hfst]
    | bound b => cases b <;> simp only [ida_loop, hd, ← hfst]

/-- The top-level depth-first call always completes within `dfsFuel`. -/
theorem top_dfs_isSome (grid : Grid) (goal : Coord) (h : Heur) (t : ℤ)
    (start : Coord) :
    (dfs_fun grid goal h t (dfsFuel grid) start 0 {start}).isSome := by
  refine dfs_fun_isSome (dfsFuel grid) start 0 {start} ?_
  have h1 : (boundsFin grid \ {start}).card ≤ (boundsFin grid).card :=
    Finset.card_le_card (Finset.sdiff_subset)
  have h2 : (boundsFin grid).card ≤ rows grid * cols grid := by
    calc (boundsFin grid).card
        ≤ ((Finset.range (rows grid)) ×ˢ (Finset.range (cols grid))).card :=
          Finset.card_image_le
      _ = rows grid * cols grid := by simp [Finset.card_product]
  simp only [dfsFuel]
  omega

/-- The outer loop completes and answers reachability, for any threshold,
once the fuel exceeds the number of candidate thresholds above `t`. -/
theorem ida_loop_correct {grid : Grid} {start goal : Coord} {h : Heur} :
    ∀ (k : ℕ) (t : ℤ),
    ((fSet grid start goal h).filter (fun x => t < x)).card < k →
    ∃ b, ida_loop grid start goal h k t = some b ∧
      (b = true ↔ ∃ l, IsPath grid goal ∅ start l) := by
  intro k
  induction k with
  | zero => intro t hcard; omega
  | succ k ih =>
      intro t hcard
      rw [ida_loop_succ]
      have hsome := top_dfs_isSome grid goal h t start
      rcases hd : dfs_fun grid goal h t (dfsFuel grid) start 0 {start}
        with _ | r
      · rw [hd] at hsome; exact absurd hsome (by simp)
      · cases r with
        | found =>
            refine ⟨true, rfl, ?_⟩
            simp only [true_iff]
            obtain ⟨v', hv'⟩ := dfs_fun_to_search hd
            obtain ⟨l, hl, -⟩ := dfs_search_found_char hv'
            exact ⟨l, hl.mono (Finset.empty_subset _)⟩
        | bound b =>
            cases b with
            | inf =>
                refine ⟨false, rfl, ?_⟩
                constructor
                · intro hb; exact absurd hb (by simp)
                · rintro ⟨l, hl⟩
                  obtain ⟨l', -, hl'⟩ :=
                    IsPath.self_avoid l.length (le_refl _) hl
                  exact absurd hl' (dfs_fun_inf (dfsFuel grid) hd l')
            | fin q =>
                have hgt : t < q := dfs_fun_gt (dfsFuel grid) hd
                have hqF : q ∈ fSet grid start goal h := by
                  refine dfs_fun_fin_mem (dfsFuel grid)
                    (Finset.mem_insert_self _ _) ?_ ?_ hd
                  · intro x hx
                    simp only [Finset.mem_singleton] at hx
                    simp [cellsFin, hx]
                  · have hstart : start ∈ cellsFin grid start :=
                      Finset.mem_insert_self _ _
                    have : (cellsFin grid start \ {start}).card <
                        (cellsFin grid start).card := by
                      refine Finset.card_lt_card ?_
                      refine Finset.ssubset_iff_of_subset
                        (Finset.sdiff_subset) |>.2 ⟨start, hstart, ?_⟩
                      simp
                    omega
                refine ih q ?_
                have hss : (fSet grid start goal h).filter (fun x => q < x) ⊂
                    (fSet grid start goal h).filter (fun x => t < x) := by
                  refine Finset.ssubset_iff_of_subset ?_ |>.2 ⟨q, ?_, ?_⟩
                  · exact Finset.monotone_filter_right _
                      fun x hx => lt_trans hgt hx
                  · exact Finset.mem_filter.2 ⟨hqF, hgt⟩
                  · simp
                have := Finset.card_lt_card hss
                omega

/-- The outer loop with the standard fuel always returns, and `ida_star`
is its value (the `getD` default is never taken). -/
theorem ida_loop_total (grid : Grid) (start goal : Coord) (h : Heur) :
    ida_loop grid start goal h (outerFuel grid start goal h) (h start goal) =
      some (ida_star start goal grid h) := by
  have hcard : ((fSet grid start goal h).filter
      (fun x => h start goal < x)).card < outerFuel grid start goal h := by
    have := Finset.card_filter_le (fSet grid start goal h)
      (fun x => h start goal < x)
    simp only [outerFuel]
    omega
  obtain ⟨b, hb, -⟩ := ida_loop_correct _ _ hcard
  rw [ida_star, hb]
  rfl

/-- `ida_star` answers exactly 4-directional reachability through free,
in-bounds cells (the start cell itself is never examined). -/
theorem ida_star_iff (grid : Grid) (start goal : Coord) (h : Heur) :
    ida_star start goal grid h = true ↔ ∃ l, IsPath grid goal ∅ start l := by
  have hcard : ((fSet grid start goal h).filter
      (fun x => h start goal < x)).card < outerFuel grid start goal h := by
    have := Finset.card_filter_le (fSet grid start goal h)
      (fun x => h start goal < x)
    simp only [outerFuel]
    omega
  obtain ⟨b, hb, hiff⟩ := ida_loop_correct _ _ hcard
  rw [ida_star, hb]
  exact hiff

theorem manhattan_eq_abs (a b : Coord) :
    manhattan a b = |a.1 - b.1| + |a.2 - b.2| := by
  simp only [manhattan]
  rw [Int.abs_eq_natAbs, Int.abs_eq_natAbs]
  omega

theorem manhattan_nonneg (a b : Coord) : 0 ≤ manhattan a b := by
  simp only [manhattan]
  positivity

theorem manhattan_comm (a b : Coord) : manhattan a b = manhattan b a := by
  simp only [manhattan]
  omega

theorem manhattan_self (a : Coord) : manhattan a a = 0 := by
  simp [manhattan]

/-- One 4-directional step changes the Manhattan distance by at most one. -/
theorem manhattan_step {c d : Coord} (hd : d ∈ nbrList c) (b : Coord) :
    manhattan c b ≤ manhattan d b + 1 := by
  simp only [nbrList, List.mem_cons, List.not_mem_nil, or_false,
    Prod.ext_iff] at hd
  rcases hd with ⟨h1, h2⟩ | ⟨h1, h2⟩ | ⟨h1, h2⟩ | ⟨h1, h2⟩ <;>
    simp only [manhattan] <;> omega

/-- Manhattan distance never exceeds the length of any 4-directional walk. -/
theorem manhattan_le_path {grid : Grid} {b : Coord} :
    ∀ {l : List Coord} {a : Coord}, IsPath grid b ∅ a l →
    manhattan a b ≤ (l.length : ℤ) := by
  intro l
  induction l with
  | nil =>
      rintro a rfl
      simp [manhattan_self]
  | cons d rest ih =>
      rintro a ⟨h1, -, -, -, h5⟩
      have := manhattan_step h1 b
      have := ih h5
      simp only [List.length_cons]
      push_cast
      omega

theorem manhattan_admissible (grid : Grid) : Admissible grid manhattan :=
  fun _ _ _ hp => manhattan_le_path hp

/-- Cells on a path stay outside the avoided set. -/
theorem IsPath.mem_not_visited {grid : Grid} {goal : Coord} {v : Finset Coord} :
    ∀ {c : Coord} {l : List Coord}, IsPath grid goal v c l →
    ∀ x ∈ l, x ∉ v := by
  intro c l
  induction l generalizing c with
  | nil => intro _ x hx; exact absurd hx (List.not_mem_nil x)
  | cons d rest ih =>
      rintro ⟨-, -, -, h4, h5⟩ x hx
      rcases List.mem_cons.1 hx with rfl | hx'
      · exact h4
      · exact ih h5 x hx'

/-- Movement is reversible: a path from a free in-bounds cell can be walked
backwards. -/
theorem IsPath.reverse {grid : Grid} {g : Coord} :
    ∀ {l : List Coord} {s : Coord}, InBounds grid s → cellAt grid s ≠ 1 →
    IsPath grid g ∅ s l → ∃ l', IsPath grid s ∅ g l' := by
  intro l
  induction l with
  | nil => rintro s _ _ rfl; exact ⟨[], rfl⟩
  | cons d rest ih =>
      rintro s hs hscell ⟨h1, h2, h3, -, h5⟩
      obtain ⟨l', hl'⟩ := ih h2 h3 h5
      exact ⟨l' ++ [s], hl'.extend (mem_nbrList_symm h1) hs hscell
        (Finset.not_mem_empty s)⟩

/-- `InBounds` only looks at the dimensions. -/
theorem inBounds_congr {grid grid' : Grid} (hrows : rows grid' = rows grid)
    (hcols : cols grid' = cols grid) (c : Coord) :
    InBounds grid c ↔ InBounds grid' c := by
  simp [InBounds, hrows, hcols]

/-- A path not passing through `s` transports between grids that agree on
every in-bounds cell except possibly `s`. -/
theorem IsPath.transport {grid grid' : Grid} {goal s : Coord}
    {v : Finset Coord} (hrows : rows grid' = rows grid)
    (hcols : cols grid' = cols grid)
    (hcell : ∀ c ∈ boundsFin grid, c ≠ s → cellAt grid c = cellAt grid' c) :
    ∀ {c : Coord} {l : List Coord}, IsPath grid goal v c l →
    (∀ x ∈ l, x ≠ s) → IsPath grid' goal v c l := by
  intro c l
  induction l generalizing c with
  | nil => exact fun hp _ => hp
  | cons d rest ih =>
      rintro ⟨h1, h2, h3, h4, h5⟩ hs
      have hds : d ≠ s := hs d (List.mem_cons_self _ _)
      refine ⟨h1, (inBounds_congr hrows hcols d).1 h2, ?_, h4,
        ih h5 fun x hx => hs x (List.mem_cons_of_mem _ hx)⟩
      rw [← hcell d (mem_boundsFin.2 h2) hds]
      exact h3

/-- Reachability never depends on the occupancy of the start cell. -/
theorem reach_congr_start {grid grid' : Grid} {g s : Coord}
    (hrows : rows grid' = rows grid) (hcols : cols grid' = cols grid)
    (hcell : ∀ c ∈ boundsFin grid, c ≠ s → cellAt grid c = cellAt grid' c) :
    (∃ l, IsPath grid g ∅ s l) → ∃ l, IsPath grid' g ∅ s l := by
  rintro ⟨l, hl⟩
  obtain ⟨l', -, hl'⟩ := IsPath.self_avoid l.length (le_refl _) hl
  have hne : ∀ x ∈ l', x ≠ s := by
    intro x hx
    have := IsPath.mem_not_visited hl' x hx
    simpa using this
  refine ⟨l', (hl'.transport hrows hcols hcell hne).mono
    (Finset.empty_subset _)⟩

theorem listMinT_mem : ∀ (l : List (ℤ × ℕ × Coord)) (acc : ℤ × ℕ × Coord),
    listMinT l acc ∈ acc :: l := by
  intro l
  induction l with
  | nil => intro acc; simp [listMinT]
  | cons x rest ih =>
      intro acc
      simp only [listMinT]
      rcases List.mem_cons.1 (ih (if tupLt x acc then x else acc)) with hm | hm
      · by_cases hx : tupLt x acc
        · rw [if_pos hx] at hm ⊢
          rw [hm]
          exact List.mem_cons_of_mem _ (List.mem_cons_self _ _)
        · rw [if_neg hx] at hm ⊢
          rw [hm]
          exact List.mem_cons_self _ _
      · exact List.mem_cons_of_mem _ (List.mem_cons_of_mem _ hm)

theorem popMin_none {l : List (ℤ × ℕ × Coord)} :
    popMin l = none ↔ l = [] := by
  cases l <;> simp [popMin]

theorem popMin_some {l rest : List (ℤ × ℕ × Coord)} {e : ℤ × ℕ × Coord}
    (hp : popMin l = some (e, rest)) :
    e ∈ l ∧ rest = l.erase e ∧ l.length = rest.length + 1 := by
  match l, hp with
  | x :: rest0, hp =>
      simp only [popMin, Option.some.injEq, Prod.mk.injEq] at hp
      obtain ⟨he, hrest⟩ := hp
      subst he
      have hmem : listMinT rest0 x ∈ x :: rest0 := listMinT_mem rest0 x
      refine ⟨hmem, hrest.symm, ?_⟩
      rw [← hrest, List.length_erase_of_mem hmem]
      simp

theorem aUpdate_visited (h : Heur) (goal current nb : Coord) (tg : ℕ)
    (st : AState) : (aUpdate h goal current nb tg st).visited = st.visited :=
  rfl

theorem aUpdate_gScore_self (h : Heur) (goal current nb : Coord) (tg : ℕ)
    (st : AState) : (aUpdate h goal current nb tg st).gScore nb = some tg := by
  simp [aUpdate]

theorem aUpdate_gScore_ne {c nb : Coord} (hc : c ≠ nb) (h : Heur)
    (goal current : Coord) (tg : ℕ) (st : AState) :
    (aUpdate h goal current nb tg st).gScore c = st.gScore c := by
  simp [aUpdate, hc]

theorem aUpdate_gScore_mono {c : Coord} (h : Heur) (goal current nb : Coord)
    (tg : ℕ) (st : AState) (hc : (st.gScore c).isSome) :
    ((aUpdate h goal current nb tg st).gScore c).isSome := by
  by_cases hne : c = nb
  · subst hne; rw [aUpdate_gScore_self]; rfl
  · rw [aUpdate_gScore_ne hne]; exact hc

theorem aUpdate_openL (h : Heur) (goal current nb : Coord) (tg : ℕ)
    (st : AState) : (aUpdate h goal current nb tg st).openL =
      if nb ∉ st.visited then ((tg : ℤ) + h nb goal, tg, nb) :: st.openL
      else st.openL := rfl

theorem keysFin_update {grid : Grid} {start nb : Coord}
    (hnb : nb ∈ cellsFin grid start) (h : Heur) (goal current : Coord)
    (tg : ℕ) (st : AState) :
    keysFin grid start (aUpdate h goal current nb tg st) =
      insert nb (keysFin grid start st) := by
  ext c
  by_cases hc : c = nb
  · subst hc
    simp [keysFin, Finset.mem_filter, hnb, aUpdate_gScore_self]
  · simp only [keysFin, Finset.mem_filter, Finset.mem_insert, hc, false_or,
      aUpdate_gScore_ne hc]

theorem sum_gVal_update {grid : Grid} {start nb : Coord}
    (hnb : nb ∈ cellsFin grid start) (h : Heur) (goal current : Coord)
    (tg : ℕ) (st : AState) :
    (cellsFin grid start).sum (gVal grid (aUpdate h goal current nb tg st))
        + gVal grid st nb
      = (cellsFin grid start).sum (gVal grid st) + tg := by
  have h1 : ∀ c ∈ (cellsFin grid start).erase nb,
      gVal grid (aUpdate h goal current nb tg st) c = gVal grid st c := by
    intro c hc
    have hne : c ≠ nb := Finset.ne_of_mem_erase hc
    simp [gVal, aUpdate_gScore_ne hne]
  have h2 : gVal grid (aUpdate h goal current nb tg st) nb = tg := by
    simp [gVal, aUpdate_gScore_self]
  rw [← Finset.add_sum_erase _ (gVal grid (aUpdate h goal current nb tg st))
      hnb,
    ← Finset.add_sum_erase _ (gVal grid st) hnb,
    Finset.sum_congr rfl h1, h2]
  ring

theorem aUpdate_pot {grid : Grid} {start nb : Coord}
    (hnb : nb ∈ cellsFin grid start) {h : Heur} {goal current : Coord}
    {tg : ℕ} {st : AState} (hdec : tg < gVal grid st nb) :
    aPot grid start (aUpdate h goal current nb tg st) ≤ aPot grid start st := by
  have hsum := sum_gVal_update hnb h goal current tg st
  have hlen : (aUpdate h goal current nb tg st).openL.length ≤
      st.openL.length + 1 := by
    rw [aUpdate_openL]
    by_cases hv : nb ∉ st.visited
    · rw [if_pos hv]; simp
    · rw [if_neg hv]; omega
  simp only [aPot] at *
  omega

/-- `aUpdate` preserves the neighbour-loop invariant. -/
theorem aUpdate_invPart {grid : Grid} {start nb : Coord} {h : Heur}
    {goal current : Coord} {tg : ℕ} {st : AState}
    (hp : AInvPart grid start st)
    (hnb : nb ∈ cellsFin grid start)
    (hcond : st.gScore nb = none ∨ ∃ v, st.gScore nb = some v ∧ tg < v)
    (htg : tg ≤ (keysFin grid start st).card)
    (hreach : ∃ l, IsPath grid nb ∅ start l) :
    AInvPart grid start (aUpdate h goal current nb tg st) := by
  constructor
  · intro c hc
    by_cases hne : c = nb
    · exact hne ▸ hnb
    · rw [aUpdate_gScore_ne hne] at hc
      exact hp.keysIn c hc
  · intro c v hc
    rw [keysFin_update hnb]
    by_cases hne : c = nb
    · rw [hne, aUpdate_gScore_self] at hc
      simp only [Option.some.injEq] at hc
      subst hc
      rcases hcond with hfresh | ⟨v0, hv0, hlt⟩
      · have hnotk : nb ∉ keysFin grid start st := by
          simp [keysFin, Finset.mem_filter, hfresh]
        rw [Finset.card_insert_of_not_mem hnotk]
        omega
      · have hk : nb ∈ keysFin grid start st := by
          simp [keysFin, Finset.mem_filter, hnb, hv0]
        rw [Finset.insert_eq_self.2 hk]
        have := hp.keyBound nb v0 hv0
        omega
    · rw [aUpdate_gScore_ne hne] at hc
      have := hp.keyBound c v hc
      have hle : (keysFin grid start st).card ≤
          (insert nb (keysFin grid start st)).card :=
        Finset.card_le_card (Finset.subset_insert _ _)
      omega
  · intro e he
    rw [aUpdate_openL] at he
    by_cases hv : nb ∉ st.visited
    · rw [if_pos hv] at he
      rcases List.mem_cons.1 he with rfl | he'
      · rw [aUpdate_gScore_self]; rfl
      · exact aUpdate_gScore_mono h goal current nb tg st (hp.openKeys e he')
    · rw [if_neg hv] at he
      exact aUpdate_gScore_mono h goal current nb tg st (hp.openKeys e he)
  · intro c hc
    by_cases hne : c = nb
    · subst hne
      rw [aUpdate_openL]
      by_cases hv : c ∉ st.visited
      · rw [if_pos hv]
        exact Or.inl ⟨_, List.mem_cons_self _ _, rfl⟩
      · rw [if_neg hv, aUpdate_visited]
        exact Or.inr (not_not.1 hv)
    · rw [aUpdate_gScore_ne hne] at hc
      rcases hp.keysLoc c hc with ⟨e, he, hee⟩ | hvis
      · refine Or.inl ⟨e, ?_, hee⟩
        rw [aUpdate_openL]
        by_cases hv : nb ∉ st.visited
        · rw [if_pos hv]; exact List.mem_cons_of_mem _ he
        · rw [if_neg hv]; exact he
      · rw [aUpdate_visited]; exact Or.inr hvis
  · intro e he
    rw [aUpdate_openL] at he
    by_cases hv : nb ∉ st.visited
    · rw [if_pos hv] at he
      rcases List.mem_cons.1 he with rfl | he'
      · exact hreach
      · exact hp.openReach e he'
    · rw [if_neg hv] at he
      exact hp.openReach e he

/-- The neighbour loop of A* preserves the invariant, keeps the closed set,
only adds `g_score` keys, never raises the potential, and leaves every
eligible processed neighbour with a key. -/
theorem astep_spec {grid : Grid} {start goal : Coord} {h : Heur}
    {current : Coord} (hreachCur : ∃ l, IsPath grid current ∅ start l) :
    ∀ (ns : List Coord) (st : AState),
    (∀ nb ∈ ns, nb ∈ nbrList current) →
    (st.gScore current).isSome →
    AInvPart grid start st →
    AInvPart grid start (astep grid goal h current ns st) ∧
    (astep grid goal h current ns st).visited = st.visited ∧
    (∀ c, (st.gScore c).isSome →
      ((astep grid goal h current ns st).gScore c).isSome) ∧
    aPot grid start (astep grid goal h current ns st) ≤ aPot grid start st ∧
    (∀ nb ∈ ns, InBounds grid nb → cellAt grid nb ≠ 1 →
      ((astep grid goal h current ns st).gScore nb).isSome) := by
  intro ns
  induction ns with
  | nil =>
      intro st _ _ hp
      refine ⟨hp, rfl, fun c hc => hc, le_refl _, ?_⟩
      intro nb hnb
      exact absurd hnb (List.not_mem_nil nb)
  | cons nb rest ih =>
      intro st hns hcur hp
      have hnbr : nb ∈ nbrList current := hns nb (List.mem_cons_self _ _)
      have hrest : ∀ x ∈ rest, x ∈ nbrList current :=
        fun x hx => hns x (List.mem_cons_of_mem _ hx)
      by_cases hin : InBounds grid nb
      · by_cases hcell : cellAt grid nb = 1
        · have heq : astep grid goal h current (nb :: rest) st =
              astep grid goal h current rest st := by
            simp [astep, hin, hcell]
          rw [heq]
          obtain ⟨i1, i2, i3, i4, i5⟩ := ih st hrest hcur hp
          refine ⟨i1, i2, i3, i4, ?_⟩
          intro x hx xin xcell
          rcases List.mem_cons.1 hx with rfl | hx'
          · exact absurd hcell xcell
          · exact i5 x hx' xin xcell
        · obtain ⟨vc, hvc⟩ := Option.isSome_iff_exists.1 hcur
          have htgdef : (st.gScore current).getD 0 + 1 = vc + 1 := by
            rw [hvc]; rfl
          have hnbS : nb ∈ cellsFin grid start := by
            simp [cellsFin, Finset.mem_insert, mem_boundsFin.2 hin]
          have htgle : (st.gScore current).getD 0 + 1 ≤
              (keysFin grid start st).card := by
            have := hp.keyBound current vc hvc
            omega
          have hreachNb : ∃ l, IsPath grid nb ∅ start l := by
            obtain ⟨l, hl⟩ := hreachCur
            exact ⟨l ++ [nb], hl.extend hnbr hin hcell
              (Finset.not_mem_empty nb)⟩
          rcases hg : st.gScore nb with _ | v
          · have heq : astep grid goal h current (nb :: rest) st =
                astep grid goal h current rest
                  (aUpdate h goal current nb ((st.gScore current).getD 0 + 1)
                    st) := by
              simp [astep, hin, hcell, hg]
            rw [heq]
            set tg := (st.gScore current).getD 0 + 1 with htg
            have hinv' : AInvPart grid start
                (aUpdate h goal current nb tg st) :=
              aUpdate_invPart hp hnbS (Or.inl hg) htgle hreachNb
            have hcur' : ((aUpdate h goal current nb tg st).gScore
                current).isSome := aUpdate_gScore_mono h goal current nb tg st
              hcur
            obtain ⟨i1, i2, i3, i4, i5⟩ :=
              ih (aUpdate h goal current nb tg st) hrest hcur' hinv'
            have hdec : tg < gVal grid st nb := by
              simp only [gVal, hg]
              have hc := Finset.card_le_card
                (Finset.filter_subset (fun c => (st.gScore c).isSome)
                  (cellsFin grid start))
              have := card_cellsFin_le grid start
              simp only [keysFin] at htgle
              simp only [gBig]
              omega
            refine ⟨i1, by rw [i2, aUpdate_visited], ?_, ?_, ?_⟩
            · intro c hc
              exact i3 c (aUpdate_gScore_mono h goal current nb tg st hc)
            · exact le_trans i4 (aUpdate_pot hnbS hdec)
            · intro x hx xin xcell
              rcases List.mem_cons.1 hx with rfl | hx'
              · refine i3 x ?_
                rw [aUpdate_gScore_self]; rfl
              · exact i5 x hx' xin xcell
          · by_cases hlt : (st.gScore current).getD 0 + 1 < v
            · have heq : astep grid goal h current (nb :: rest) st =
                  astep grid goal h current rest
                    (aUpdate h goal current nb
                      ((st.gScore current).getD 0 + 1) st) := by
                simp [astep, hin, hcell, hg, hlt]
              rw [heq]
              set tg := (st.gScore current).getD 0 + 1 with htg
              have hinv' : AInvPart grid start
                  (aUpdate h goal current nb tg st) :=
                aUpdate_invPart hp hnbS (Or.inr ⟨v, hg, hlt⟩) htgle hreachNb
              have hcur' : ((aUpdate h goal current nb tg st).gScore
                  current).isSome := aUpdate_gScore_mono h goal current nb tg
                st hcur
              obtain ⟨i1, i2, i3, i4, i5⟩ :=
                ih (aUpdate h goal current nb tg st) hrest hcur' hinv'
              have hdec : tg < gVal grid st nb := by
                simp only [gVal, hg]
                exact hlt
              refine ⟨i1, by rw [i2, aUpdate_visited], ?_, ?_, ?_⟩
              · intro c hc
                exact i3 c (aUpdate_gScore_mono h goal current nb tg st hc)
              · exact le_trans i4 (aUpdate_pot hnbS hdec)
              · intro x hx xin xcell
                rcases List.mem_cons.1 hx with rfl | hx'
                · refine i3 x ?_
                  rw [aUpdate_gScore_self]; rfl
                · exact i5 x hx' xin xcell
            · have heq : astep grid goal h current (nb :: rest) st =
                  astep grid goal h current rest st := by
                simp [astep, hin, hcell, hg, hlt]
              rw [heq]
              obtain ⟨i1, i2, i3, i4, i5⟩ := ih st hrest hcur hp
              refine ⟨i1, i2, i3, i4, ?_⟩
              intro x hx xin xcell
              rcases List.mem_cons.1 hx with rfl | hx'
              · exact i3 x (by rw [hg]; rfl)
              · exact i5 x hx' xin xcell
      · have heq : astep grid goal h current (nb :: rest) st =
            astep grid goal h current rest st := by
          simp [astep, hin]
        rw [heq]
        obtain ⟨i1, i2, i3, i4, i5⟩ := ih st hrest hcur hp
        refine ⟨i1, i2, i3, i4, ?_⟩
        intro x hx xin xcell
        rcases List.mem_cons.1 hx with rfl | hx'
        · exact absurd xin hin
        · exact i5 x hx' xin xcell

/-- The A* loop completes within its potential and answers reachability. -/
theorem aloop_correct {grid : Grid} {start goal : Coord} {h : Heur} :
    ∀ (fuel : ℕ) (st : AState), AInv grid start goal st →
    aPot grid start st < fuel →
    ∃ b, aloop grid goal h fuel st = some b ∧
      (b = true ↔ ∃ l, IsPath grid goal ∅ start l) := by
  intro fuel
  induction fuel with
  | zero => intro st _ hpot; omega
  | succ fuel ih =>
      intro st hinv hpot
      rcases hpop : popMin st.openL with _ | ⟨e, rest⟩
      · refine ⟨false, ?_, ?_⟩
        · simp only [aloop, hpop]
        · constructor
          · intro hb; exact absurd hb (by simp)
          · rintro ⟨l, hl⟩
            exfalso
            have hempty : st.openL = [] := popMin_none.1 hpop
            have hvis : ∀ c, (st.gScore c).isSome → c ∈ st.visited := by
              intro c hc
              rcases hinv.part.keysLoc c hc with ⟨e, he, -⟩ | hv
              · rw [hempty] at he; exact absurd he (List.not_mem_nil e)
              · exact hv
            have hfollow : ∀ (l : List Coord) (c : Coord), c ∈ st.visited →
                IsPath grid goal ∅ c l → goal ∈ st.visited := by
              intro l
              induction l with
              | nil => rintro c hc rfl; exact hc
              | cons d restl ihl =>
                  rintro c hc ⟨h1, h2, h3, -, h5⟩
                  exact ihl d (hvis d (hinv.visClosed c hc d h1 h2 h3)) h5
            exact hinv.goalOut (hfollow l start (hvis start hinv.startKey) hl)
      · obtain ⟨hmem, hrest, hlen⟩ := popMin_some hpop
        by_cases hgoal : e.2.2 = goal
        · refine ⟨true, ?_, ?_⟩
          · simp only [aloop, hpop, hgoal, if_pos]
          · simp only [true_iff]
            obtain ⟨l, hl⟩ := hinv.part.openReach e hmem
            exact ⟨l, hgoal ▸ hl⟩
        · have heq : aloop grid goal h (fuel + 1) st =
              aloop grid goal h fuel
                (astep grid goal h e.2.2 (nbrList e.2.2)
                  { st with
                      openL := rest
                      expanded := st.expanded + 1
                      visited := insert e.2.2 st.visited }) := by
            simp only [aloop, hpop, hgoal, if_neg, not_false_iff]
          set st₂ : AState :=
            { st with
                openL := rest
                expanded := st.expanded + 1
                visited := insert e.2.2 st.visited } with hst₂
          have hopen₂ : st₂.openL = st.openL.erase e := hrest
          have hcur : (st₂.gScore e.2.2).isSome := hinv.part.openKeys e hmem
          have hreachCur : ∃ l, IsPath grid e.2.2 ∅ start l :=
            hinv.part.openReach e hmem
          have hpart₂ : AInvPart grid start st₂ := by
            constructor
            · exact hinv.part.keysIn
            · intro c v hc
              have := hinv.part.keyBound c v hc
              have hkeq : keysFin grid start st₂ = keysFin grid start st := rfl
              rw [hkeq]
              exact this
            · intro e' he'
              rw [hopen₂] at he'
              exact hinv.part.openKeys e' (List.mem_of_mem_erase he')
            · intro c hc
              rcases hinv.part.keysLoc c hc with ⟨e', he', hee⟩ | hv
              · by_cases hee' : e' = e
                · subst hee'
                  exact Or.inr (hee ▸ Finset.mem_insert_self _ _)
                · refine Or.inl ⟨e', ?_, hee⟩
                  rw [hopen₂]
                  exact (List.mem_erase_of_ne hee').2 he'
              · exact Or.inr (Finset.mem_insert_of_mem hv)
            · intro e' he'
              rw [hopen₂] at he'
              exact hinv.part.openReach e' (List.mem_of_mem_erase he')
          obtain ⟨i1, i2, i3, i4, i5⟩ := astep_spec hreachCur (nbrList e.2.2)
            st₂ (fun x hx => hx) hcur hpart₂
          have hinv₃ : AInv grid start goal
              (astep grid goal h e.2.2 (nbrList e.2.2) st₂) := by
            constructor
            · exact i1
            · intro c hc nb hnb nbin nbcell
              rw [i2] at hc
              rcases Finset.mem_insert.1 hc with rfl | hcold
              · exact i5 nb hnb nbin nbcell
              · exact i3 nb (hinv.visClosed c hcold nb hnb nbin nbcell)
            · rw [i2]
              simp only [Finset.mem_insert, not_or]
              exact ⟨fun hh => hgoal hh.symm, hinv.goalOut⟩
            · exact i3 start hinv.startKey
          have hsum₂ : (cellsFin grid start).sum (gVal grid st₂) =
              (cellsFin grid start).sum (gVal grid st) := rfl
          have hlen₂ : st₂.openL.length = rest.length := rfl
          have hpot₂ : aPot grid start st₂ + 1 = aPot grid start st := by
            simp only [aPot]
            rw [hsum₂, hlen₂]
            omega
          have hpot₃ : aPot grid start
              (astep grid goal h e.2.2 (nbrList e.2.2) st₂) < fuel := by
            omega
          obtain ⟨b, hb, hiff⟩ := ih _ hinv₃ hpot₃
          exact ⟨b, heq ▸ hb, hiff⟩

theorem aInit_inv (grid : Grid) (start goal : Coord) (h : Heur) :
    AInv grid start goal (aInit h start goal) := by
  constructor
  · constructor
    · intro c hc
      simp only [aInit] at hc
      by_cases hcs : c = start
      · exact hcs ▸ Finset.mem_insert_self _ _
      · rw [if_neg hcs] at hc; exact absurd hc (by simp)
    · intro c v hc
      simp only [aInit] at hc
      by_cases hcs : c = start
      · rw [if_pos hcs] at hc
        simp only [Option.some.injEq] at hc
        have hk : start ∈ keysFin grid start (aInit h start goal) := by
          simp [keysFin, aInit, Finset.mem_filter, cellsFin]
        have := Finset.card_pos.2 ⟨start, hk⟩
        omega
      · rw [if_neg hcs] at hc; exact absurd hc (by simp)
    · intro e he
      simp only [aInit, List.mem_cons, List.not_mem_nil, or_false] at he
      subst he
      simp [aInit]
    · intro c hc
      simp only [aInit] at hc
      by_cases hcs : c = start
      · exact Or.inl ⟨((0 : ℤ) + h start goal, 0, start), by simp [aInit, hcs]⟩
      · rw [if_neg hcs] at hc; exact absurd hc (by simp)
    · intro e he
      simp only [aInit, List.mem_cons, List.not_mem_nil, or_false] at he
      subst he
      exact ⟨[], rfl⟩
  · intro c hc
    simp only [aInit] at hc
    exact absurd hc (Finset.not_mem_empty c)
  · simp [aInit]
  · simp [aInit]

theorem aPot_init_lt (grid : Grid) (start goal : Coord) (h : Heur) :
    aPot grid start (aInit h start goal) < aFuel grid := by
  have hsum : (cellsFin grid start).sum (gVal grid (aInit h start goal)) ≤
      (cellsFin grid start).card * gBig grid := by
    rw [← smul_eq_mul]
    refine Finset.sum_le_card_nsmul _ _ _ ?_
    intro c _
    simp only [gVal, aInit]
    by_cases hcs : c = start
    · rw [if_pos hcs]; simp
    · rw [if_neg hcs]
  have hcard := card_cellsFin_le grid start
  have hlen : (aInit h start goal).openL.length = 1 := rfl
  simp only [aPot, hlen, aFuel]
  have hmul : (cellsFin grid start).card * gBig grid ≤
      (rows grid * cols grid + 1) * (rows grid * cols grid + 2) := by
    simp only [gBig]
    exact Nat.mul_le_mul_right _ hcard
  omega

/-- `AStar.search` answers exactly the same reachability predicate. -/
theorem AStar_search_iff (grid : Grid) (start goal : Coord) (h : Heur) :
    AStar.search h start goal grid = true ↔
      ∃ l, IsPath grid goal ∅ start l := by
  obtain ⟨b, hb, hiff⟩ := aloop_correct (aFuel grid) (aInit h start goal)
    (aInit_inv grid start goal h) (aPot_init_lt grid start goal h)
  rw [AStar.search, hb]
  exact hiff

/-- The A* loop with the standard fuel always returns, and `AStar.search`
is its value (the `getD` default is never taken). -/
theorem aloop_total (grid : Grid) (start goal : Coord) (h : Heur) :
    aloop grid goal h (aFuel grid) (aInit h start goal) =
      some (AStar.search h start goal grid) := by
  obtain ⟨b, hb, -⟩ := aloop_correct (aFuel grid) (aInit h start goal)
    (aInit_inv grid start goal h) (aPot_init_lt grid start goal h)
  rw [AStar.search, hb]
  rfl

/-- The in-bounds cells only depend on the dimensions. -/
theorem boundsFin_congr {grid grid' : Grid} (hrows : rows grid' = rows grid)
    (hcols : cols grid' = cols grid) : boundsFin grid' = boundsFin grid := by
  simp [boundsFin, hrows, hcols]

/-- When every neighbour is skipped (out of bounds, blocked, or already
visited), the loop returns its accumulator and the untouched visited set. -/
theorem dfs_loop_all_skip
    {recurse : Coord → ℕ → Finset Coord → Option (Res × Finset Coord)}
    {grid : Grid} {g : ℕ} :
    ∀ {ns : List Coord} {visited : Finset Coord} {m : ECost},
    (∀ nb ∈ ns, ¬(InBounds grid nb ∧ cellAt grid nb ≠ 1 ∧ nb ∉ visited)) →
    dfs_loop recurse grid g ns visited m = some (.bound m, visited) := by
  intro ns
  induction ns with
  | nil => intro visited m _; rfl
  | cons nb rest ih =>
      intro visited m hsk
      have hnb := hsk nb (List.mem_cons_self _ _)
      have hrest := fun x hx => hsk x (List.mem_cons_of_mem nb hx)
      by_cases hin : InBounds grid nb
      · by_cases hcell : cellAt grid nb = 1
        · have heq : dfs_loop recurse grid g (nb :: rest) visited m =
              dfs_loop recurse grid g rest visited m := by
            simp [dfs_loop, hin, hcell]
          rw [heq]; exact ih hrest
        · have hmem : nb ∈ visited := by tauto
          have heq : dfs_loop recurse grid g (nb :: rest) visited m =
              dfs_loop recurse grid g rest visited m := by
            simp [dfs_loop, hin, hcell, hmem]
          rw [heq]; exact ih hrest
      · have heq : dfs_loop recurse grid g (nb :: rest) visited m =
            dfs_loop recurse grid g rest visited m := by
          simp [dfs_loop, hin]
        rw [heq]; exact ih hrest

/-- A non-pruned, non-goal call with zero eligible neighbours returns
`math.inf` and leaves the visited set untouched. -/
theorem dfs_search_boxed {grid : Grid} {goal : Coord} {h : Heur} {t : ℤ}
    {fuel : ℕ} {node : Coord} {g : ℕ} {visited : Finset Coord}
    (hf : ¬ t < (g : ℤ) + h node goal) (hgoal : node ≠ goal)
    (hbox : ∀ nb ∈ nbrList node,
      ¬(InBounds grid nb ∧ cellAt grid nb ≠ 1 ∧ nb ∉ visited)) :
    dfs_search grid goal h t (fuel + 1) node g visited =
      some (.bound .inf, visited) := by
  have heq : dfs_search grid goal h t (fuel + 1) node g visited =
      dfs_loop (dfs_search grid goal h t fuel) grid g (nbrList node)
        visited .inf := by
    simp only [dfs_search]
    rw [if_neg hf, if_neg hgoal]
  rw [heq]
  exact dfs_loop_all_skip hbox

/-- An outer iteration whose top-level bounded search returns `math.inf`
makes `ida_star` return `False` immediately. -/
theorem ida_loop_false_of_inf {grid : Grid} {start goal : Coord} {h : Heur}
    {k : ℕ} {t : ℤ} {v' : Finset Coord}
    (hd : dfs_search grid goal h t (dfsFuel grid) start 0 {start} =
      some (.bound .inf, v')) :
    ida_loop grid start goal h (k + 1) t = some false := by
  simp only [ida_loop, hd]

/-- An outer iteration whose top-level bounded search returns a finite bound
never returns `False` there: it continues with that bound as threshold. -/
theorem ida_loop_step_of_fin {grid : Grid} {start goal : Coord} {h : Heur}
    {k : ℕ} {t q : ℤ} {v' : Finset Coord}
    (hd : dfs_search grid goal h t (dfsFuel grid) start 0 {start} =
      some (.bound (.fin q), v')) :
    ida_loop grid start goal h (k + 1) t = ida_loop grid start goal h k q := by
  simp only [ida_loop, hd]

/-- Two booleans agreeing as propositions are equal. -/
theorem bool_eq_of_iff {a b : Bool} (hiff : a = true ↔ b = true) : a = b := by
  cases a <;> cases b <;> simp_all

set_option maxRecDepth 8000

set_option linter.unusedVariables false

/-- Claim C1: for a rectangular grid, in-bounds unblocked start and goal,
and any admissible heuristic, `ida_star` returns `True` exactly when a
4-directionally-connected obstacle-free path exists (with `start == goal`
trivially `True`), and the boolean outcome is the same for every admissible
heuristic. -/
theorem c1_boolean_outcome (grid : Grid) (s g : Coord) (h : Heur)
    (hrect : Rectangular grid) (hs : InBounds grid s) (hg : InBounds grid g)
    (hsf : cellAt grid s ≠ 1) (hgf : cellAt grid g ≠ 1)
    (hadm : Admissible grid h) :
    (ida_star s g grid h = true ↔ ∃ l, IsPath grid g ∅ s l) ∧
    (∀ h' : Heur, Admissible grid h' →
      ida_star s g grid h' = ida_star s g grid h) := by
  refine ⟨ida_star_iff grid s g h, ?_⟩
  intro h' _
  exact bool_eq_of_iff ((ida_star_iff grid s g h').trans
    (ida_star_iff grid s g h).symm)

theorem c1_boolean_outcome_witness :
    (Rectangular [[0, 0]] ∧ InBounds [[0, 0]] (0, 0) ∧
      InBounds [[0, 0]] (0, 1) ∧ cellAt [[0, 0]] (0, 0) ≠ 1 ∧
      cellAt [[0, 0]] (0, 1) ≠ 1 ∧ Admissible [[0, 0]] manhattan) ∧
    ((ida_star (0, 0) (0, 1) [[0, 0]] manhattan = true ↔
        ∃ l, IsPath [[0, 0]] (0, 1) ∅ (0, 0) l) ∧
      (∀ h' : Heur, Admissible [[0, 0]] h' →
        ida_star (0, 0) (0, 1) [[0, 0]] h' =
          ida_star (0, 0) (0, 1) [[0, 0]] manhattan)) :=
  ⟨⟨by decide, by decide, by decide, by decide, by decide,
    manhattan_admissible [[0, 0]]⟩,
   c1_boolean_outcome [[0, 0]] (0, 0) (0, 1) manhattan (by decide) (by decide)
     (by decide) (by decide) (by decide) (manhattan_admissible [[0, 0]])⟩

/-- Claim C2: for a finite rectangular grid, in-bounds start and goal, and an
admissible non-negative heuristic, the outer loop terminates within the
explicit fuel `outerFuel` and returns a boolean; in particular it returns
`False` (and terminates) whenever no connecting free path exists. -/
theorem c2_termination (grid : Grid) (s g : Coord) (h : Heur)
    (hrect : Rectangular grid) (hs : InBounds grid s) (hg : InBounds grid g)
    (hnn : ∀ a b : Coord, 0 ≤ h a b) (hadm : Admissible grid h) :
    ida_loop grid s g h (outerFuel grid s g h) (h s g) =
      some (ida_star s g grid h) ∧
    ((∀ l, ¬ IsPath grid g ∅ s l) → ida_star s g grid h = false) := by
  refine ⟨ida_loop_total grid s g h, ?_⟩
  intro hno
  cases hb : ida_star s g grid h with
  | false => rfl
  | true =>
      exfalso
      obtain ⟨l, hl⟩ := (ida_star_iff grid s g h).1 hb
      exact hno l hl

theorem c2_termination_witness :
    (Rectangular [[0, 0]] ∧ InBounds [[0, 0]] (0, 0) ∧
      InBounds [[0, 0]] (0, 1) ∧ (∀ a b : Coord, 0 ≤ manhattan a b) ∧
      Admissible [[0, 0]] manhattan) ∧
    (ida_loop [[0, 0]] (0, 0) (0, 1) manhattan
        (outerFuel [[0, 0]] (0, 0) (0, 1) manhattan)
        (manhattan (0, 0) (0, 1)) =
      some (ida_star (0, 0) (0, 1) [[0, 0]] manhattan) ∧
      ((∀ l, ¬ IsPath [[0, 0]] (0, 1) ∅ (0, 0) l) →
        ida_star (0, 0) (0, 1) [[0, 0]] manhattan = false)) :=
  ⟨⟨by decide, by decide, by decide, manhattan_nonneg,
    manhattan_admissible [[0, 0]]⟩,
   c2_termination [[0, 0]] (0, 0) (0, 1) manhattan (by decide) (by decide)
     (by decide) manhattan_nonneg (manhattan_admissible [[0, 0]])⟩

/-- Claim C3: every finite non-`"FOUND"` value returned by `dfs_search` run
with threshold `t` is strictly greater than `t`, so each assignment
`threshold = result` strictly increases the threshold. -/
theorem c3_threshold_increases (grid : Grid) (goal : Coord) (h : Heur)
    (t : ℤ) (fuel : ℕ) (node : Coord) (g : ℕ) (visited v' : Finset Coord)
    (q : ℤ)
    (hd : dfs_search grid goal h t fuel node g visited =
      some (.bound (.fin q), v')) :
    t < q :=
  dfs_fun_gt fuel (dfs_search_to_fun hd)

theorem c3_threshold_increases_witness :
    dfs_search [[0]] (0, 5) manhattan 0 1 (0, 0) 0 {(0, 0)} =
      some (.bound (.fin 5), {(0, 0)}) ∧ (0 : ℤ) < 5 :=
  ⟨by decide, c3_threshold_increases [[0]] (0, 5) manhattan 0 1 (0, 0) 0
    {(0, 0)} {(0, 0)} 5 (by decide)⟩

/-- Claim C4 counterexample: a call of the bounded depth-first search at a
node with zero eligible neighbours (all four out of bounds) that does not
return `math.inf`: the node is the goal, so the call returns `"FOUND"`
(a pruned call likewise returns its finite f-cost). -/
theorem c4_counterexample :
    (∀ nb ∈ nbrList (0, 0),
      ¬(InBounds [[0]] nb ∧ cellAt [[0]] nb ≠ 1 ∧
        nb ∉ ({((0 : ℤ), (0 : ℤ))} : Finset Coord))) ∧
    dfs_search [[0]] (0, 0) manhattan 0 1 (0, 0) 0 {(0, 0)} =
      some (.found, {(0, 0)}) ∧
    some (Res.found, ({((0 : ℤ), (0 : ℤ))} : Finset Coord)) ≠
      some (Res.bound .inf, ({((0 : ℤ), (0 : ℤ))} : Finset Coord)) := by
  refine ⟨by decide, by decide, by decide⟩

/-- Claim C4 (amended): a call of the bounded depth-first search that passes
the threshold check and is not at the goal returns `math.inf` when it has
zero eligible neighbours; and within an outer iteration the loop returns
`False` exactly on a top-level `math.inf` — on a finite bound it instead
continues with that bound as the next threshold. -/
theorem c4_exhaustion (grid : Grid) (s goal : Coord) (h : Heur) (t : ℤ) :
    (∀ (fuel g : ℕ) (node : Coord) (visited : Finset Coord),
      ¬ t < (g : ℤ) + h node goal → node ≠ goal →
      (∀ nb ∈ nbrList node,
        ¬(InBounds grid nb ∧ cellAt grid nb ≠ 1 ∧ nb ∉ visited)) →
      dfs_search grid goal h t (fuel + 1) node g visited =
        some (.bound .inf, visited)) ∧
    (∀ (k : ℕ) (v' : Finset Coord),
      dfs_search grid goal h t (dfsFuel grid) s 0 {s} =
        some (.bound .inf, v') →
      ida_loop grid s goal h (k + 1) t = some false) ∧
    (∀ (k : ℕ) (q : ℤ) (v' : Finset Coord),
      dfs_search grid goal h t (dfsFuel grid) s 0 {s} =
        some (.bound (.fin q), v') →
      ida_loop grid s goal h (k + 1) t = ida_loop grid s goal h k q) :=
  ⟨fun _ _ _ _ hf hg hbox => dfs_search_boxed hf hg hbox,
   fun _ _ hd => ida_loop_false_of_inf hd,
   fun _ _ _ hd => ida_loop_step_of_fin hd⟩

theorem c4_exhaustion_witness :
    ((¬ (5 : ℤ) < ((0 : ℕ) : ℤ) + manhattan (0, 0) (0, 5)) ∧
      ((0, 0) : Coord) ≠ (0, 5) ∧
      (∀ nb ∈ nbrList (0, 0),
        ¬(InBounds [[0]] nb ∧ cellAt [[0]] nb ≠ 1 ∧
          nb ∉ ({((0 : ℤ), (0 : ℤ))} : Finset Coord))) ∧
      dfs_search [[0]] (0, 5) manhattan 5 1 (0, 0) 0 {(0, 0)} =
        some (.bound .inf, {(0, 0)})) ∧
    (dfs_search [[0]] (0, 5) manhattan 5 (dfsFuel [[0]]) (0, 0) 0 {(0, 0)} =
        some (.bound .inf, {(0, 0)}) ∧
      ida_loop [[0]] (0, 0) (0, 5) manhattan 1 5 = some false) ∧
    (dfs_search [[0]] (0, 5) manhattan 0 (dfsFuel [[0]]) (0, 0) 0 {(0, 0)} =
        some (.bound (.fin 5), {(0, 0)}) ∧
      ida_loop [[0]] (0, 0) (0, 5) manhattan 1 0 =
        ida_loop [[0]] (0, 0) (0, 5) manhattan 0 5) :=
  ⟨⟨by decide, by decide, by decide,
    (c4_exhaustion [[0]] (0, 0) (0, 5) manhattan 5).1 0 0 (0, 0) {(0, 0)}
      (by decide) (by decide) (by decide)⟩,
   ⟨by decide,
    (c4_exhaustion [[0]] (0, 0) (0, 5) manhattan 5).2.1 0 {(0, 0)}
      (by decide)⟩,
   ⟨by decide,
    (c4_exhaustion [[0]] (0, 0) (0, 5) manhattan 0).2.2 0 5 {(0, 0)}
      (by decide)⟩⟩

/-- Claim C5: within one outer iteration the visited set is managed as a
mark-on-descent / unmark-on-backtrack stack: whenever a subtree is fully
explored without `"FOUND"` the set returned equals the set passed in (each
neighbour added before its recursive call was removed afterwards), and on
`"FOUND"` the final set is exactly the input set plus the cells of the
active path to the goal. -/
theorem c5_visited_discipline (grid : Grid) (goal : Coord) (h : Heur)
    (t : ℤ) :
    (∀ (fuel : ℕ) (node : Coord) (g : ℕ) (visited : Finset Coord)
        (b : ECost) (v' : Finset Coord),
      dfs_search grid goal h t fuel node g visited = some (.bound b, v') →
      v' = visited) ∧
    (∀ (fuel : ℕ) (node : Coord) (g : ℕ) (visited v' : Finset Coord),
      dfs_search grid goal h t fuel node g visited = some (.found, v') →
      ∃ l, IsPath grid goal visited node l ∧ v' = visited ∪ l.toFinset) :=
  ⟨fun _ _ _ _ _ _ hd => dfs_search_bound_restores hd,
   fun _ _ _ _ _ hd => dfs_search_found_char hd⟩

theorem c5_visited_discipline_witness :
    (dfs_search [[0]] (0, 5) manhattan 0 1 (0, 0) 0 {(0, 0)} =
        some (.bound (.fin 5), {(0, 0)}) ∧
      ({((0 : ℤ), (0 : ℤ))} : Finset Coord) = {(0, 0)}) ∧
    (dfs_search [[0, 0]] (0, 1) manhattan 1 2 (0, 0) 0 {(0, 0)} =
        some (.found, {(0, 1), (0, 0)}) ∧
      ∃ l, IsPath [[0, 0]] (0, 1) {(0, 0)} (0, 0) l ∧
        ({((0 : ℤ), (1 : ℤ)), ((0 : ℤ), (0 : ℤ))} : Finset Coord) =
          {(0, 0)} ∪ l.toFinset) :=
  ⟨⟨by decide, (c5_visited_discipline [[0]] (0, 5) manhattan 0).1 1 (0, 0) 0
      {(0, 0)} (.fin 5) {(0, 0)} (by decide)⟩,
   ⟨by decide, (c5_visited_discipline [[0, 0]] (0, 1) manhattan 1).2 2 (0, 0)
      0 {(0, 0)} {(0, 1), (0, 0)} (by decide)⟩⟩

/-- Claim C6: on every rectangular grid and every pair of coordinates,
`ida_star` and the reference best-first search `AStar.search` return the
same boolean existence result for the same start, goal, grid and
heuristic. -/
theorem c6_matches_reference_astar (grid : Grid) (s g : Coord) (h : Heur)
    (hrect : Rectangular grid) :
    AStar.search h s g grid = ida_star s g grid h :=
  bool_eq_of_iff ((AStar_search_iff grid s g h).trans
    (ida_star_iff grid s g h).symm)

theorem c6_matches_reference_astar_witness :
    Rectangular [[0, 0]] ∧
    AStar.search manhattan (0, 0) (0, 1) [[0, 0]] =
      ida_star (0, 0) (0, 1) [[0, 0]] manhattan :=
  ⟨by decide,
   c6_matches_reference_astar [[0, 0]] (0, 0) (0, 1) manhattan (by decide)⟩

/-- Claim C7 counterexample: on the grid `[[1, 0]]` with a blocked start
cell `(0, 0)` and free `(0, 1)` — both in bounds — `ida_star` is not
symmetric: the search never examines its own start cell, so
`(0, 0) → (0, 1)` succeeds while `(0, 1) → (0, 0)` cannot enter the
blocked goal. -/
theorem c7_counterexample :
    InBounds [[1, 0]] (0, 0) ∧ InBounds [[1, 0]] (0, 1) ∧
    ida_star (0, 0) (0, 1) [[1, 0]] manhattan = true ∧
    ida_star (0, 1) (0, 0) [[1, 0]] manhattan = false ∧
    ida_star (0, 0) (0, 1) [[1, 0]] manhattan ≠
      ida_star (0, 1) (0, 0) [[1, 0]] manhattan := by
  refine ⟨by decide, by decide, by decide, by decide, by decide⟩

/-- Claim C7 (amended): `ida_star` is symmetric in start and goal for every
grid, every heuristic, and every pair of in-bounds coordinates whose cells
are both unblocked. -/
theorem c7_symmetry_free_endpoints (grid : Grid) (s g : Coord) (h : Heur)
    (hs : InBounds grid s) (hg : InBounds grid g)
    (hsf : cellAt grid s ≠ 1) (hgf : cellAt grid g ≠ 1) :
    ida_star s g grid h = ida_star g s grid h := by
  refine bool_eq_of_iff ((ida_star_iff grid s g h).trans
    (Iff.trans ?_ (ida_star_iff grid g s h).symm))
  constructor
  · rintro ⟨l, hl⟩
    exact IsPath.reverse hs hsf hl
  · rintro ⟨l, hl⟩
    exact IsPath.reverse hg hgf hl

theorem c7_symmetry_free_endpoints_witness :
    (InBounds [[0, 0]] (0, 0) ∧ InBounds [[0, 0]] (0, 1) ∧
      cellAt [[0, 0]] (0, 0) ≠ 1 ∧ cellAt [[0, 0]] (0, 1) ≠ 1) ∧
    ida_star (0, 0) (0, 1) [[0, 0]] manhattan =
      ida_star (0, 1) (0, 0) [[0, 0]] manhattan :=
  ⟨⟨by decide, by decide, by decide, by decide⟩,
   c7_symmetry_free_endpoints [[0, 0]] (0, 0) (0, 1) manhattan (by decide)
     (by decide) (by decide) (by decide)⟩

/-- Claim C8: the default heuristic `manhattan` equals
`|Δrow| + |Δcol|`, is non-negative and symmetric, and is admissible: it
never exceeds the length of any 4-directional unit-cost walk between its
arguments, hence never exceeds the true shortest-path cost when a path
exists. -/
theorem c8_manhattan_contract :
    (∀ a b : Coord, manhattan a b = |a.1 - b.1| + |a.2 - b.2| ∧
      0 ≤ manhattan a b ∧ manhattan a b = manhattan b a) ∧
    (∀ (grid : Grid) (a b : Coord) (l : List Coord),
      IsPath grid b ∅ a l → manhattan a b ≤ (l.length : ℤ)) :=
  ⟨fun a b => ⟨manhattan_eq_abs a b, manhattan_nonneg a b,
    manhattan_comm a b⟩,
   fun _ _ _ _ hp => manhattan_le_path hp⟩

theorem c8_manhattan_contract_witness :
    IsPath [[0, 0]] (0, 1) ∅ (0, 0) [(0, 1)] ∧
    manhattan (0, 0) (0, 1) ≤ (([((0 : ℤ), (1 : ℤ))] : List Coord).length : ℤ) :=
  ⟨by decide,
   c8_manhattan_contract.2 [[0, 0]] (0, 0) (0, 1) [(0, 1)] (by decide)⟩

/-- Claim C9: for every coordinate `s`, every grid and every heuristic,
`ida_star s s grid h` returns `True`: the initial threshold is `h(s, s)`,
the root f-cost `0 + h(s, s)` never exceeds it, and the goal check precedes
any neighbour or occupancy test — so this holds for every grid, including
grids where `s` is blocked or out of bounds. -/
theorem c9_degenerate_true (s : Coord) (grid : Grid) (h : Heur) :
    ida_star s s grid h = true :=
  (ida_star_iff grid s s h).2 ⟨[], rfl⟩

/-- Claim C10: the result of `ida_star` does not depend on the occupancy of
the start cell: two grids of the same dimensions that agree on every
in-bounds cell except possibly `s` give the same boolean. -/
theorem c10_start_occupancy_irrelevant (grid grid' : Grid) (s g : Coord)
    (h : Heur) (hrows : rows grid' = rows grid)
    (hcols : cols grid' = cols grid)
    (hcell : ∀ c ∈ boundsFin grid, c ≠ s → cellAt grid c = cellAt grid' c)
    (hs : InBounds grid s) :
    ida_star s g grid h = ida_star s g grid' h := by
  refine bool_eq_of_iff ((ida_star_iff grid s g h).trans
    (Iff.trans ?_ (ida_star_iff grid' s g h).symm))
  constructor
  · exact reach_congr_start hrows hcols hcell
  · refine reach_congr_start hrows.symm hcols.symm ?_
    intro c hc hcs
    rw [boundsFin_congr hrows hcols] at hc
    exact (hcell c hc hcs).symm

theorem c10_start_occupancy_irrelevant_witness :
    (rows [[0, 0], [0, 0]] = rows [[0, 0], [0, 1]] ∧
      cols [[0, 0], [0, 0]] = cols [[0, 0], [0, 1]] ∧
      (∀ c ∈ boundsFin [[0, 0], [0, 1]], c ≠ (1, 1) →
        cellAt [[0, 0], [0, 1]] c = cellAt [[0, 0], [0, 0]] c) ∧
      InBounds [[0, 0], [0, 1]] (1, 1)) ∧
    ida_star (1, 1) (0, 0) [[0, 0], [0, 1]] manhattan =
      ida_star (1, 1) (0, 0) [[0, 0], [0, 0]] manhattan :=
  ⟨⟨by decide, by decide, by decide, by decide⟩,
   c10_start_occupancy_irrelevant [[0, 0], [0, 1]] [[0, 0], [0, 0]] (1, 1)
     (0, 0) manhattan (by decide) (by decide) (by decide) (by decide)⟩
